import Mathlib

/-!
# Verification development for `world.h` (slime-chunk cluster search)

Shallow embedding of the search engine of `src/world.h`:

* `int` / `long` values are `Int`. In `getCoordinateValue` and `isSlimeChunk`, where the C++
  arithmetic leaves the range of its type on ordinary inputs, the result of every operation
  is wrapped explicitly (`wrap32`, `wrap64`), which is what the two's-complement targets of
  the program do. Cell coordinates, indices, sizes and areas are not wrapped: the embedding
  follows the code as long as they are representable as `int`. The general theorems on the
  result of the rectangle scorer and on the flood-fill assume this range (fewer than 2^31
  cells in a bitmap, `int` neighbours for the cells of a region) and state that nothing
  leaves it;
* `std::vector` is `List`; the two `std::stack<int>` of `findLargestRect`, always pushed and
  popped together, are one list of pairs with the top at the head;
* `std::set<std::vector<coords>>` is the list of its elements in increasing order;
* the function-local static `checked_chunks` and the outputs of `getCluster` (console, HTTP
  POST) are fields of an explicit `State`;
* the recursion of `getCluster` and the two `for` loops of `search` are bounded by a fuel
  argument (`none` = out of fuel).
-/

namespace world

/-! ## Definitions -/

/-- The struct `coords` of `world.h`: a pair of `int`. -/
structure coords where
  x : Int
  z : Int
deriving DecidableEq, Repr

/-- The `operator<` on `coords` (world.h:15-18): compares the `x` fields only. -/
def coords.operatorLt (c1 c2 : coords) : Bool := decide (c1.x < c2.x)

/-- The `operator==` on `coords` (world.h:20-23): compares the `x` fields only. -/
def coords.operatorEq (c1 c2 : coords) : Bool := decide (c1.x = c2.x)

/-- Value of a 32-bit two's-complement `int` after an operation whose exact result is `n`. -/
def wrap32 (n : Int) : Int := (n + 2 ^ 31) % 2 ^ 32 - 2 ^ 31

/-- Value of a 64-bit two's-complement `long` after an operation whose exact result is `n`. -/
def wrap64 (n : Int) : Int := (n + 2 ^ 63) % 2 ^ 64 - 2 ^ 63

/-- Bit pattern of a 64-bit integer read as unsigned (conversion to `size_t`). -/
def toU64 (n : Int) : Nat := (n % 2 ^ 64).toNat

/-- The function `getCoordinateValue` (world.h:28-31).
`(x * x * 0x4c1906) + (x * 0x5ac0db) + (z * z) * 0x4307a7L + (z * 0x5f24f)` with `int x, z`:
the products `x * x * 0x4c1906`, `x * 0x5ac0db`, `z * z`, `z * 0x5f24f` and the sum of the
first two have type `int`; only `0x4307a7L` is a `long`, so the product with it and the two
last additions are `long`. -/
def getCoordinateValue (x z : Int) : Int :=
  let a : Int := wrap32 (wrap32 (x * x) * 0x4c1906)
  let b : Int := wrap32 (x * 0x5ac0db)
  let c : Int := wrap64 (wrap32 (z * z) * 0x4307a7)
  let d : Int := wrap32 (z * 0x5f24f)
  wrap64 (wrap64 (wrap32 (a + b) + c) + d)

/-- The polynomial of the specification, every product and sum carried out in 64-bit signed
arithmetic (wrapping modulo 2^64), nothing narrower. -/
def coordinatePolynomial64 (x z : Int) : Int :=
  let a : Int := wrap64 (wrap64 (0x4c1906 * x) * x)
  let b : Int := wrap64 (0x5ac0db * x)
  let c : Int := wrap64 (wrap64 (0x4307a7 * z) * z)
  let d : Int := wrap64 (0x5f24f * z)
  wrap64 (wrap64 (wrap64 (a + b) + c) + d)

/-- The method `World::isSlimeChunk` (world.h:73-76).
`!((((((cv + seed ^ 0x3ad8025fL ^ 0x5DEECE66DL) & 0xFFFFFFFFFFFF) * 0x5DEECE66DL + 0xBL)
& 0xFFFFFFFFFFFF) >> 17) % 10)` on the signed types `long` and `long long`;
`+` binds tighter than `^`, `%` truncates towards zero. -/
def isSlimeChunk (cached_coordinate_value seed : Int) : Bool :=
  let s1 : Int := wrap64 (cached_coordinate_value + seed)
  let s2 : Int := Int.xor (Int.xor s1 0x3ad8025f) 0x5DEECE66D
  let s3 : Int := Int.land s2 0xFFFFFFFFFFFF
  let s4 : Int := wrap64 (wrap64 (s3 * 0x5DEECE66D) + 0xB)
  let s5 : Int := Int.land s4 0xFFFFFFFFFFFF
  let s6 : Int := s5 >>> (17 : Nat)
  !(Int.tmod s6 10 != 0)

/-- The marking test as the specification words it, on the unsigned 64-bit patterns of the
coordinate value and the seed, every `+` and `*` wrapping modulo 2^64. -/
def slimeFormulaU64 (ucv us : Nat) : Nat :=
  ((((((ucv + us) % 2 ^ 64 ^^^ 0x3ad8025f ^^^ 0x5DEECE66D) % 2 ^ 48) * 0x5DEECE66D % 2 ^ 64
      + 0xB) % 2 ^ 64) % 2 ^ 48 / 2 ^ 17) % 10

/-- The 48-bit value that enters the multiplication of `isSlimeChunk`, for the exact sum `n`
of coordinate value and seed. -/
def mixed48 (n : Int) : Nat := ((n % 2 ^ 48).toNat ^^^ 0x3ad8025f ^^^ 0x5DEECE66D) % 2 ^ 48

/-! ### Largest rectangle in a histogram -/

/-- Local variables of `findLargestRect` that live across loop iterations. `stack` holds the
pairs (`hStack` entry, `pStack` entry), top first; `maxSize` is the `double`, `none` standing
for minus infinity. -/
structure RectState where
  stack : List (Int × Int)
  tempPos : Int
  maxSize : Option Int
  dimensions : coords
deriving DecidableEq, Repr

/-- The three statements that follow every pop (world.h:141-143 and 155-157):
`tempSize = tempH * (i - tempPos); maxSize = std::max((double)tempSize, maxSize);
if (maxSize == tempSize) dimensions = coords{i - tempPos, tempH};`. The product is not
wrapped: it is the `int` product of the code as long as it lies below 2^31, which holds for
the histograms of a bitmap of fewer than 2^31 cells (`rowHistograms_int_range`). -/
def recordPop (i tempH tempPos : Int) (maxSize : Option Int) (dimensions : coords) :
    Option Int × coords :=
  let tempSize : Int := tempH * (i - tempPos)
  let newMax : Int := match maxSize with
    | none => tempSize
    | some m => max tempSize m
  (some newMax, if newMax = tempSize then ⟨i - tempPos, tempH⟩ else dimensions)

/-- The inner loop `while (!hStack.empty() && h < hStack.top())` (world.h:136-144). -/
def popLoop (h i : Int) : List (Int × Int) → Int → Option Int → coords → RectState
  | [], tempPos, maxSize, dimensions => ⟨[], tempPos, maxSize, dimensions⟩
  | (tempH, tp) :: rest, tempPos, maxSize, dimensions =>
    if h < tempH then
      let r := recordPop i tempH tp maxSize dimensions
      popLoop h i rest tp r.1 r.2
    else ⟨(tempH, tp) :: rest, tempPos, maxSize, dimensions⟩

/-- The final loop `while (!hStack.empty())` (world.h:150-158). -/
def flushLoop (i : Int) : List (Int × Int) → Int → Option Int → coords → RectState
  | [], tempPos, maxSize, dimensions => ⟨[], tempPos, maxSize, dimensions⟩
  | (tempH, tp) :: rest, _, maxSize, dimensions =>
    let r := recordPop i tempH tp maxSize dimensions
    flushLoop i rest tp r.1 r.2

/-- One iteration of the `for` loop of `findLargestRect` at index `i` with bar `h`
(world.h:130-147). -/
def scanStep (i h : Int) (st : RectState) : RectState :=
  match st.stack with
  | [] => { st with stack := [(h, i)] }
  | (top, _) :: _ =>
    if h > top then { st with stack := (h, i) :: st.stack }
    else if h < top then
      let st1 := popLoop h i st.stack st.tempPos st.maxSize st.dimensions
      { st1 with stack := (h, st1.tempPos) :: st1.stack }
    else st

/-- The `for` loop of `findLargestRect` from index `i` over the remaining bars. -/
def scanLoop : Int → List Int → RectState → RectState
  | _, [], st => st
  | i, h :: rest, st => scanLoop (i + 1) rest (scanStep i h st)

/-- The method `World::findLargestRect` (world.h:116-160). `uninit` is the indeterminate
initial value of the local `dimensions`, which the code never initialises. -/
def findLargestRect (uninit : coords) (histogram : List Int) : coords :=
  let st := scanLoop 0 histogram ⟨[], 0, none, uninit⟩
  (flushLoop histogram.length st.stack st.tempPos st.maxSize st.dimensions).dimensions

/-- The inner `for` loop of `createSubMatrixHistogram` (world.h:98-105) for one row: entry `z`
is incremented where `chunks[x][z]` holds and reset to 0 elsewhere; `ncols` is
`chunks[0].size()`. -/
def updateHistogram (ncols : Nat) (histogram : List Int) (row : List Bool) : List Int :=
  (List.range ncols).map fun z => if row.getD z false then histogram.getD z 0 + 1 else 0

/-- Body of the outer loop of `createSubMatrixHistogram` (world.h:96-110) for one row. The
two areas compared are not wrapped: they are the `int` products of the code as long as they
lie below 2^31 (`rowHistograms_int_range`). -/
def histogramRow (uninit : coords) (ncols : Nat) (acc : List Int × coords) (row : List Bool) :
    List Int × coords :=
  let histogram := updateHistogram ncols acc.1 row
  let temp := findLargestRect uninit histogram
  (histogram, if temp.x * temp.z > acc.2.x * acc.2.z then temp else acc.2)

/-- The method `World::createSubMatrixHistogram` (world.h:89-113). -/
def createSubMatrixHistogram (uninit : coords) (chunks : List (List Bool)) : coords :=
  let ncols := (chunks.headD []).length
  (chunks.foldl (histogramRow uninit ncols) (List.replicate ncols 0, ⟨0, 0⟩)).2

/-! ### Cluster bitmap -/

/-- The bounding-box loop of `generateClusterRegion` (world.h:266-277); the result is
(`top`, `bottom`, `left`, `right`). -/
def boundingBox (first : coords) (chunks : List coords) : Int × Int × Int × Int :=
  chunks.foldl
    (fun b c => (max c.x b.1, min c.x b.2.1, min c.z b.2.2.1, max c.z b.2.2.2))
    (first.x, first.x, first.z, first.z)

/-- The method `World::generateClusterRegion` (world.h:263-297): `width` rows (one per `z`)
of `height` cells (one per `x`). `chunks.front()` needs a non-empty vector; the empty list
gives the empty grid here. -/
def generateClusterRegion (chunks : List coords) : List (List Bool) :=
  match chunks with
  | [] => []
  | first :: _ =>
    let b := boundingBox first chunks
    let top := b.1
    let bottom := b.2.1
    let left := b.2.2.1
    let right := b.2.2.2
    let width := right + 1 - left
    let height := top + 1 - bottom
    (List.range width.toNat).map fun z : Nat =>
      (List.range height.toNat).map fun x : Nat =>
        chunks.any fun c1 => decide (c1.x = (x : Int) + bottom) && decide (c1.z = (z : Int) + left)

/-! ### Cluster registry -/

/-- The comparison `std::vector<coords>::operator<`, which is
`std::lexicographical_compare` with the `operator<` of `coords`. -/
def lexicographical_compare : List coords → List coords → Bool
  | _, [] => false
  | [], _ :: _ => true
  | a :: as, b :: bs =>
    if a.operatorLt b then true
    else if b.operatorLt a then false
    else lexicographical_compare as bs

/-- The call `std::set<std::vector<coords>>::insert`: the set is walked in increasing order;
the value is inserted in front of the first larger element, and rejected when an element
that is neither smaller nor larger is met. The second component is `it_res.second`. -/
def set_insert : List (List coords) → List coords → List (List coords) × Bool
  | [], v => ([v], true)
  | e :: s, v =>
    if lexicographical_compare v e then (v :: e :: s, true)
    else if lexicographical_compare e v then
      let r := set_insert s v
      (e :: r.1, r.2)
    else (e :: s, false)

/-- The call `std::stable_sort(checked_chunks.begin(), checked_chunks.end())` with the
`operator<` of `coords`: a stable sort, elements that compare equal keep their order. -/
def stable_sort (chunks : List coords) : List coords :=
  chunks.insertionSort fun a b => b.operatorLt a = false

/-! ### The search engine -/

/-- The data members of the class `World` (world.h:36-44, 50) that do not change during a
search. -/
structure World where
  cached_coordinate_values : List Int
  seed : Int
  logging : Bool
  returnOnlyRectangles : Bool
  allowOneWides : Bool
  spacing : Int
  radius : Int
  min_size : Int
  cache_size : Int

/-- The lines written to the console for a returned cluster (world.h:205-216). -/
structure ConsoleEntry where
  seed : Int
  x : Int
  z : Int
  size : Int
  chunks : List coords
deriving DecidableEq, Repr

/-- The JSON body of the POST request (world.h:235-240). -/
structure PostRecord where
  seed : Int
  chunks : List coords
  coords : coords
  size : Int
deriving DecidableEq, Repr

/-- What `getCluster` reads and writes: the static local `checked_chunks`, the member
`slime_clusters`, the console and the requests sent. -/
structure State where
  checked_chunks : List coords
  slime_clusters : List (List coords)
  console : List ConsoleEntry
  posted : List PostRecord
deriving DecidableEq, Repr

/-- The local `should_return_cluster` (world.h:197); `checked_chunks.size() > min_size`
compares as `size_t`. -/
def should_return_cluster (w : World) (largest_rect_dimensions : coords)
    (checked_chunks : List coords) : Bool :=
  if w.returnOnlyRectangles then
    decide (largest_rect_dimensions.x * largest_rect_dimensions.z > w.min_size)
  else decide (checked_chunks.length > toU64 w.min_size)

/-- The local `allowOneWides` (world.h:200). -/
def allowOneWidesLocal (w : World) (largest_rect_dimensions : coords) : Bool :=
  if w.allowOneWides then true
  else (largest_rect_dimensions.x != 1 && largest_rect_dimensions.z != 1)

/-- The block of `getCluster` that registers, scores and reports a cluster
(world.h:188-257), run on the state left by the four neighbour calls. The grid passed to
`createSubMatrixHistogram` has no empty row, so its indeterminate case never arises. -/
def registerAndReport (w : World) (x z : Int) (st : State) : State :=
  let checked_chunks := stable_sort st.checked_chunks
  let it_res := set_insert st.slime_clusters checked_chunks
  let cluster_region := generateClusterRegion checked_chunks
  let largest_rect_dimensions := createSubMatrixHistogram ⟨0, 0⟩ cluster_region
  let st1 : State :=
    { st with checked_chunks := checked_chunks, slime_clusters := it_res.1 }
  if it_res.2 && w.logging && should_return_cluster w largest_rect_dimensions checked_chunks
      && allowOneWidesLocal w largest_rect_dimensions then
    let largest_area := largest_rect_dimensions.x * largest_rect_dimensions.z
    let shown : Int := if w.returnOnlyRectangles then largest_area else checked_chunks.length
    let st2 : State :=
      { st1 with console := st1.console ++ [⟨w.seed, x, z, shown, checked_chunks⟩] }
    if largest_area ≥ w.min_size then
      let first := checked_chunks.headD ⟨0, 0⟩
      { st2 with
        posted := st2.posted ++
          [⟨w.seed, checked_chunks, ⟨first.x * 16, first.z * 16⟩, largest_area⟩] }
    else st2
  else st1

/-- The end of `getCluster` (world.h:186-258):
`if (checked_chunks.size() >= this->min_size && depth)`, the comparison done as `size_t`. -/
def clusterTail (w : World) (x z depth : Int) (st : State) : State :=
  if decide (st.checked_chunks.length ≥ toU64 w.min_size) && decide (depth ≠ 0) then
    registerAndReport w x z st
  else st

/-- The guard of `getCluster` (world.h:169): the cell is a slime chunk and its coordinates
are not in `checked_chunks`. -/
def clusterGuard (w : World) (x z coordinate_value : Int) (st : State) : Bool :=
  isSlimeChunk coordinate_value w.seed &&
    !(st.checked_chunks.any fun c1 => decide (c1.x = x) && decide (c1.z = z))

/-- The statements of `getCluster` between the guard and the neighbour calls
(world.h:170-177): clear on an initial call, then push the current cell. -/
def enterCell (x z depth : Int) (st : State) : State :=
  let cleared := if depth ≠ 0 then [] else st.checked_chunks
  { st with checked_chunks := cleared ++ [⟨x, z⟩] }

/-- The method `World::getCluster` (world.h:163-260). The recursive calls pass the default
`depth = 0` and the coordinate value computed by `getCoordinateValue`. The neighbour
coordinates `x ± 1`, `z ± 1` are not wrapped: they are the `int` sums of the code as long as
they are representable as `int` (`fitsInt`), which the theorems on regions assume. -/
def getCluster (w : World) : Nat → Int → Int → Int → Int → State → Option State
  | 0, _, _, _, _, _ => none
  | fuel + 1, x, z, coordinate_value, depth, st =>
    if clusterGuard w x z coordinate_value st then
      (getCluster w fuel (x + 1) z (getCoordinateValue (x + 1) z) 0
          (enterCell x z depth st)).bind fun s1 =>
      (getCluster w fuel (x - 1) z (getCoordinateValue (x - 1) z) 0 s1).bind fun s2 =>
      (getCluster w fuel x (z + 1) (getCoordinateValue x (z + 1)) 0 s2).bind fun s3 =>
      (getCluster w fuel x (z - 1) (getCoordinateValue x (z - 1)) 0 s3).bind fun s4 =>
      some (clusterTail w x z depth s4)
    else some st

/-- The four recursive calls of `getCluster` (world.h:180-183) for the cell `(x, z)`. -/
def neighbourCalls (w : World) (fuel : Nat) (x z : Int) (st : State) : Option State :=
  (getCluster w fuel (x + 1) z (getCoordinateValue (x + 1) z) 0 st).bind fun s1 =>
  (getCluster w fuel (x - 1) z (getCoordinateValue (x - 1) z) 0 s1).bind fun s2 =>
  (getCluster w fuel x (z + 1) (getCoordinateValue x (z + 1)) 0 s2).bind fun s3 =>
  getCluster w fuel x (z - 1) (getCoordinateValue x (z - 1)) 0 s3

/-- The marking of the cell `(x, z)` for a seed, as `getCluster` evaluates it for the
neighbours: `isSlimeChunk(getCoordinateValue(x, z), seed)`. -/
def marked (seed : Int) (c : coords) : Bool := isSlimeChunk (getCoordinateValue c.x c.z) seed

/-- A `World` as the constructor (world.h:58-69) builds it from its arguments, the cache
left empty: `getCluster` reads the cache only through the argument `coordinate_value`. -/
def mkWorld (seed radius min_size spacing : Int)
    (logging returnOnlyRectangles allowOneWides : Bool) : World :=
  { cached_coordinate_values := [], seed := seed, logging := logging,
    returnOnlyRectangles := returnOnlyRectangles, allowOneWides := allowOneWides,
    spacing := spacing, radius := radius, min_size := min_size, cache_size := 0 }

/-- The acceptance decision of `getCluster` (world.h:197-203): the conjunction of the locals
`should_return_cluster` and `allowOneWides` in the condition of the reporting block. -/
def acceptance (w : World) (largest_rect_dimensions : coords) (checked_chunks : List coords) :
    Bool :=
  should_return_cluster w largest_rect_dimensions checked_chunks &&
    allowOneWidesLocal w largest_rect_dimensions

/-- The best rectangle of a sorted cluster, as `getCluster` computes it (world.h:193-194). -/
def largestRectOf (checked_chunks : List coords) : coords :=
  createSubMatrixHistogram ⟨0, 0⟩ (generateClusterRegion checked_chunks)

/-! ### Evaluation and flood-fill on the list level

The definitions of this part are not translations of source functions: they restate
`isSlimeChunk` and `getCluster` in a form that evaluates inside proofs, and isolate what the
recursive calls of `getCluster` do to `checked_chunks`. The theorems `isSlimeChunk_eq`,
`getCluster_eq_eval` and `getCluster_depth_zero` relate them to the embedding. -/

/-- The marking test evaluated on natural numbers; equal to `isSlimeChunk`
(`isSlimeChunk_eq`). -/
def isSlimeChunkEval (cv seed : Int) : Bool :=
  decide ((mixed48 (cv + seed) * 0x5DEECE66D + 0xB) % 2 ^ 48 / 2 ^ 17 % 10 = 0)

/-- The function `getCluster` with `isSlimeChunkEval` as marking test; equal to `getCluster`
(`getCluster_eq_eval`) and used to evaluate it on concrete inputs. -/
def getClusterEval (w : World) : Nat → Int → Int → Int → Int → State → Option State
  | 0, _, _, _, _, _ => none
  | fuel + 1, x, z, coordinate_value, depth, st =>
    if isSlimeChunkEval coordinate_value w.seed &&
        !(st.checked_chunks.any fun c1 => decide (c1.x = x) && decide (c1.z = z)) then
      (getClusterEval w fuel (x + 1) z (getCoordinateValue (x + 1) z) 0
          (enterCell x z depth st)).bind fun s1 =>
      (getClusterEval w fuel (x - 1) z (getCoordinateValue (x - 1) z) 0 s1).bind fun s2 =>
      (getClusterEval w fuel x (z + 1) (getCoordinateValue x (z + 1)) 0 s2).bind fun s3 =>
      (getClusterEval w fuel x (z - 1) (getCoordinateValue x (z - 1)) 0 s3).bind fun s4 =>
      some (clusterTail w x z depth s4)
    else some st

/-- What a recursive call of `getCluster` (`depth = 0`) does to `checked_chunks`, as a function
on lists (`getCluster_depth_zero`). -/
def fillFrom (seed : Int) : Nat → coords → List coords → Option (List coords)
  | 0, _, _ => none
  | fuel + 1, c, visited =>
    if marked seed c && !(visited.any fun c1 => decide (c1.x = c.x) && decide (c1.z = c.z)) then
      (fillFrom seed fuel ⟨c.x + 1, c.z⟩ (visited ++ [c])).bind fun v1 =>
      (fillFrom seed fuel ⟨c.x - 1, c.z⟩ v1).bind fun v2 =>
      (fillFrom seed fuel ⟨c.x, c.z + 1⟩ v2).bind fun v3 =>
      fillFrom seed fuel ⟨c.x, c.z - 1⟩ v3
    else some visited

/-- The four neighbours of a cell, in the order in which `getCluster` visits them. -/
def neighbours (c : coords) : List coords :=
  [⟨c.x + 1, c.z⟩, ⟨c.x - 1, c.z⟩, ⟨c.x, c.z + 1⟩, ⟨c.x, c.z - 1⟩]

/-- One step of the 4-connectivity relation between marked cells. -/
def MarkedStep (seed : Int) (a b : coords) : Prop :=
  marked seed a = true ∧ marked seed b = true ∧ b ∈ neighbours a

/-- The cell `c` belongs to the 4-connected marked region of the marked cell `origin`: it is
reached from `origin` by steps of one cell in `x` or `z` through marked cells only. -/
def InRegion (seed : Int) (origin c : coords) : Prop :=
  marked seed origin = true ∧ Relation.ReflTransGen (MarkedStep seed) origin c

/-- The four neighbour calls of `fillFrom` for the cell `c`, on the list level. -/
def fillNeighbours (seed : Int) (fuel : Nat) (c : coords) (visited : List coords) :
    Option (List coords) :=
  (fillFrom seed fuel ⟨c.x + 1, c.z⟩ visited).bind fun v1 =>
  (fillFrom seed fuel ⟨c.x - 1, c.z⟩ v1).bind fun v2 =>
  (fillFrom seed fuel ⟨c.x, c.z + 1⟩ v2).bind fun v3 =>
  fillFrom seed fuel ⟨c.x, c.z - 1⟩ v3

/-- Every cell of `visited` outside `open_cells` has all its marked neighbours in
`visited`. -/
def ClosedExcept (seed : Int) (visited : List coords) (open_cells : coords → Prop) : Prop :=
  ∀ u ∈ visited, ¬ open_cells u → ∀ n ∈ neighbours u, marked seed n = true → n ∈ visited

/-- What one call of `fillFrom` at the cell `c` guarantees about the visited list before
(`v0`) and after (`v1`). -/
structure FillSpec (seed : Int) (c : coords) (v0 v1 : List coords) : Prop where
  mono : ∀ v ∈ v0, v ∈ v1
  sound : ∀ v ∈ v1, v ∈ v0 ∨
    (marked seed c = true ∧ Relation.ReflTransGen (MarkedStep seed) c v)
  nodup : v0.Nodup → v1.Nodup
  self : marked seed c = true → c ∈ v1
  closed : ∀ F : coords → Prop, ClosedExcept seed v0 F → ClosedExcept seed v1 F

/-! ### Specification vocabulary and loop invariants of the rectangle scorer -/

/-- Height of the bar at index `j` of a histogram (0 outside the histogram). -/
def bar (H : List Int) (j : Int) : Int := H.getD j.toNat 0

/-- The value of `tempPos` after popping the entries `popped` (top first). -/
def lastPos : List (Int × Int) → Int → Int
  | [], tp => tp
  | e :: rest, _ => lastPos rest e.2

/-- The values of `maxSize` and `dimensions` after popping the entries `popped` (top first)
at index `i`. -/
def foldPops (i : Int) : List (Int × Int) → Option Int × coords → Option Int × coords
  | [], acc => acc
  | e :: rest, acc => foldPops i rest (recordPop i e.1 e.2 acc.1 acc.2)

/-- A rectangle of width `d.x` and height `d.z` fits under the histogram: there are `d.x`
consecutive bars, each at least `d.z` high. -/
def FitsUnder (H : List Int) (d : coords) : Prop :=
  0 ≤ d.x ∧ 0 ≤ d.z ∧
    ∃ l : Int, 0 ≤ l ∧ l + d.x ≤ H.length ∧ ∀ j, l ≤ j → j < l + d.x → d.z ≤ bar H j

/-- Whenever `maxSize` has been assigned, it is the area of `dimensions`, and `dimensions`
fits under the histogram. -/
def MaxReal (H : List Int) (maxSize : Option Int) (d : coords) : Prop :=
  ∀ v, maxSize = some v → v = d.x * d.z ∧ FitsUnder H d

/-- Loop invariant of the `for` loop of `findLargestRect` after the bars `pre`. -/
structure ScanInv (pre : List Int) (st : RectState) : Prop where
  pos_sorted : st.stack.Pairwise fun a b => b.2 < a.2
  h_sorted : st.stack.Pairwise fun a b => b.1 ≤ a.1
  range : ∀ e ∈ st.stack, 0 ≤ e.1 ∧ 0 ≤ e.2 ∧ e.2 < pre.length
  fits : ∀ e ∈ st.stack, ∀ j : Int, e.2 ≤ j → j < pre.length → e.1 ≤ bar pre j
  cover : ∀ l m : Int, 0 ≤ l → l < pre.length →
    (∀ j : Int, l ≤ j → j < pre.length → m ≤ bar pre j) → ∃ e ∈ st.stack, e.2 ≤ l ∧ m ≤ e.1
  done : ∀ l r m : Int, 0 ≤ l → l < r → r ≤ pre.length → 0 ≤ m →
    (∀ j : Int, l ≤ j → j < r → m ≤ bar pre j) →
    (∃ M, st.maxSize = some M ∧ m * (r - l) ≤ M) ∨
      ∃ e ∈ st.stack, m * (r - l) ≤ e.1 * (pre.length - e.2)
  real : MaxReal pre st.maxSize st.dimensions

/-- The cell `chunks[i][j]` of a bitmap (`false` outside the grid). -/
def cellAt (bm : List (List Bool)) (i j : Nat) : Bool := (bm.getD i []).getD j false

/-- The sub-rectangle of `h` rows and `w` columns whose top-left cell is in row `r0` and
column `c0` lies inside the grid of `ncols` columns and all its cells are true. -/
def RectIn (bm : List (List Bool)) (ncols r0 c0 h w : Nat) : Prop :=
  r0 + h ≤ bm.length ∧ c0 + w ≤ ncols ∧
    ∀ i j, r0 ≤ i → i < r0 + h → c0 ≤ j → j < c0 + w → cellAt bm i j = true

/-- The test `RectIn` as a computation, the number of columns read from the first row. -/
def allTrueRect (bm : List (List Bool)) (r0 c0 h w : Nat) : Bool :=
  decide (r0 + h ≤ bm.length) && decide (c0 + w ≤ (bm.headD []).length) &&
    (List.range h).all fun i => (List.range w).all fun j => cellAt bm (r0 + i) (c0 + j)

/-- The largest of `f 0, ..., f (n - 1)` (0 for `n = 0`). -/
def maxOver : Nat → (Nat → Nat) → Nat
  | 0, _ => 0
  | n + 1, f => max (maxOver n f) (f n)

/-- The brute-force reference of the specification: the largest area of an all-true
axis-aligned sub-rectangle, over all top-left corners and all sizes. -/
def bruteForceMaxArea (bm : List (List Bool)) : Nat :=
  maxOver (bm.length + 1) fun r0 =>
    maxOver ((bm.headD []).length + 1) fun c0 =>
      maxOver (bm.length + 1) fun h =>
        maxOver ((bm.headD []).length + 1) fun w =>
          if allTrueRect bm r0 c0 h w then h * w else 0

/-- Loop invariant of the outer loop of `createSubMatrixHistogram` after the rows `pre`:
`acc.1` is the histogram (the run of true cells that ends in the last row, per column) and
`acc.2` is `maxDimensions`. -/
structure RowInv (ncols : Nat) (pre : List (List Bool)) (acc : List Int × coords) : Prop where
  len : acc.1.length = ncols
  run : ∀ c t : Nat, c < ncols →
    ((t : Int) ≤ bar acc.1 c ↔
      t ≤ pre.length ∧ ∀ i, i < pre.length → pre.length ≤ i + t → cellAt pre i c = true)
  best_nonneg : 0 ≤ acc.2.x ∧ 0 ≤ acc.2.z
  best_real : 0 < acc.2.x * acc.2.z →
    ∃ r0 c0, RectIn pre ncols r0 c0 acc.2.z.toNat acc.2.x.toNat
  best_max : ∀ r0 c0 h w, RectIn pre ncols r0 c0 h w → ((h * w : Nat) : Int) ≤ acc.2.x * acc.2.z

/-- A non-empty rectangular bitmap: at least one row, all rows as long as the first one,
at least one column. -/
def Rectangular (bm : List (List Bool)) : Prop :=
  bm ≠ [] ∧ (∀ row ∈ bm, row.length = (bm.headD []).length) ∧ 1 ≤ (bm.headD []).length

/-! ### Specification vocabulary of the registry -/

/-- The sequence of `x` fields of a cluster: all that `operator<` on `coords` lets the
registry see of it. -/
def xProfile (v : List coords) : List Int := v.map fun c => c.x

/-- Invariant of the registry: its elements are in strictly increasing order of their
`x` sequences. -/
def RegistrySorted (s : List (List coords)) : Prop :=
  (s.map xProfile).Pairwise (List.Lex fun a b : Int => a < b)

/-! ### The scan -/

/-- The values taken by the control variable of a loop
`for (int v = start; v < bound; v += step)`, in order; `none` when `fuel` iterations do not
bring the variable to the bound. -/
def forValues : Nat → Int → Int → Int → Option (List Int)
  | 0, v, bound, _ => if v < bound then none else some []
  | fuel + 1, v, bound, step =>
    if v < bound then (forValues fuel (v + step) bound step).map fun vs => v :: vs
    else some []

/-- The inner loop of `search` (world.h:84-85) for the row `z`, over the values `xs` of `x`.
`body x z coordinate_value` stands for the call
`this->getCluster(x, z, coordinate_value, 1)`; `acc.1` is the local `index`, read and then
incremented at every call (an index outside the cache reads 0 here). -/
def searchRow {σ : Type} (body : Int → Int → Int → σ → Option σ) (cache : List Int)
    (z : Int) : List Int → Nat × σ → Option (Nat × σ)
  | [], acc => some acc
  | x :: xs, acc =>
    (body x z (cache.getD acc.1 0) acc.2).bind fun s =>
      searchRow body cache z xs (acc.1 + 1, s)

/-- The outer loop of `search` (world.h:83-85) over the values `zs` of `z`; every row runs
over the same values `xs` of `x`. -/
def searchRows {σ : Type} (body : Int → Int → Int → σ → Option σ) (cache : List Int)
    (xs : List Int) : List Int → Nat × σ → Option (Nat × σ)
  | [], acc => some acc
  | z :: zs, acc =>
    (searchRow body cache z xs acc).bind fun acc1 => searchRows body cache xs zs acc1

/-- The method `World::search` (world.h:79-86) with the call of `getCluster` abstracted as
`body`: `half_radius = radius / 2`, both loops run from `-half_radius` in steps of `spacing`
while below `half_radius`, `index` starts at 0. -/
def searchWith {σ : Type} (body : Int → Int → Int → σ → Option σ) (w : World) (fuel : Nat)
    (init : σ) : Option σ :=
  let half_radius := Int.tdiv w.radius 2
  (forValues fuel (-half_radius) half_radius w.spacing).bind fun vs =>
    (searchRows body w.cached_coordinate_values vs vs (0, init)).map fun acc => acc.2

/-- The method `World::search` (world.h:79-86): every call is
`this->getCluster(x, z, this->cached_coordinate_values[index++], 1)`. -/
def search (w : World) (fuel : Nat) (st : State) : Option State :=
  searchWith (fun x z coordinate_value s => getCluster w fuel x z coordinate_value 1 s) w fuel st

/-- The method `World::search` with `getClusterEval` in place of `getCluster`; equal to
`search` (`search_eq_eval`) and used to evaluate it on concrete inputs. -/
def searchEval (w : World) (fuel : Nat) (st : State) : Option State :=
  searchWith (fun x z coordinate_value s => getClusterEval w fuel x z coordinate_value 1 s)
    w fuel st

/-- The coordinate-value cache as the specification describes it: the values of
`getCoordinateValue` for the cells of the rows `zs`, each row over the values `xs`, row by
row. -/
def cacheFor (xs zs : List Int) : List Int :=
  zs.flatMap fun z => xs.map fun x => getCoordinateValue x z

/-- A `World` with all its data members, the cache included, as the constructor
(world.h:58-69) receives them. -/
def mkWorldCached (cache : List Int) (seed radius min_size spacing : Int)
    (logging returnOnlyRectangles allowOneWides : Bool) : World :=
  { cached_coordinate_values := cache, seed := seed, logging := logging,
    returnOnlyRectangles := returnOnlyRectangles, allowOneWides := allowOneWides,
    spacing := spacing, radius := radius, min_size := min_size, cache_size := cache.length }

/-- The values `-h, -h + s, ..., ` below `h`: what both loops of `search` run over. -/
def scanValues (h s : Int) : List Int :=
  (List.range ((2 * h + s - 1) / s).toNat).map fun k : Nat => -h + (k : Int) * s

/-- The candidate `coords{i - tempPos, tempH}` of a pop at index `i` (world.h:143, 157). -/
def candidate (i tempH tempPos : Int) : coords := ⟨i - tempPos, tempH⟩

/-- The candidates of the pops of the inner loop (world.h:136-144), in order. -/
def popLoopCandidates (h i : Int) : List (Int × Int) → List coords
  | [] => []
  | (tempH, tp) :: rest =>
    if h < tempH then candidate i tempH tp :: popLoopCandidates h i rest else []

/-- The candidates of the pops of the final loop (world.h:150-158), in order. -/
def flushLoopCandidates (i : Int) : List (Int × Int) → List coords
  | [] => []
  | (tempH, tp) :: rest => candidate i tempH tp :: flushLoopCandidates i rest

/-- The candidates of one iteration of the `for` loop at index `i` with bar `h`. -/
def scanStepCandidates (i h : Int) (st : RectState) : List coords :=
  match st.stack with
  | [] => []
  | (top, _) :: _ =>
    if h > top then []
    else if h < top then popLoopCandidates h i st.stack
    else []

/-- The candidates of the `for` loop from index `i` over the remaining bars. -/
def scanLoopCandidates : Int → List Int → RectState → List coords
  | _, [], _ => []
  | i, h :: rest, st =>
    scanStepCandidates i h st ++ scanLoopCandidates (i + 1) rest (scanStep i h st)

/-- The candidates of one call of `findLargestRect`: the pops of the scan from left to
right, then the pops of the final loop. -/
def findLargestRectCandidates (uninit : coords) (histogram : List Int) : List coords :=
  let st := scanLoop 0 histogram ⟨[], 0, none, uninit⟩
  scanLoopCandidates 0 histogram ⟨[], 0, none, uninit⟩
    ++ flushLoopCandidates histogram.length st.stack

/-- The histograms that the outer loop of `createSubMatrixHistogram` passes to
`findLargestRect`, row after row (world.h:96-107). -/
def rowHistograms (ncols : Nat) : List Int → List (List Bool) → List (List Int)
  | _, [] => []
  | histogram, row :: rest =>
    updateHistogram ncols histogram row
      :: rowHistograms ncols (updateHistogram ncols histogram row) rest

/-- The candidates of one call of `createSubMatrixHistogram`: one list per row, rows from
top to bottom. -/
def createSubMatrixHistogramCandidates (uninit : coords) (chunks : List (List Bool)) :
    List (List coords) :=
  let ncols := (chunks.headD []).length
  (rowHistograms ncols (List.replicate ncols 0) chunks).map (findLargestRectCandidates uninit)

/-- The area `x * z` of a pair of dimensions. -/
def area (d : coords) : Int := d.x * d.z

/-- The first entry of a list of dimensions whose area is the largest of the list. -/
def firstLargest (cands : List coords) : Option coords :=
  cands.find? fun c => cands.all fun c1 => decide (area c1 ≤ area c)

/-- The last entry of a list of dimensions whose area is the largest of the list. -/
def lastLargest (cands : List coords) : Option coords :=
  cands.reverse.find? fun c => cands.all fun c1 => decide (area c1 ≤ area c)

/-- State of the running best of `findLargestRect` after the candidates `cs`: nothing
assigned yet, or `maxSize` is the area of `dimensions`, which is a candidate with no larger
one before it and only smaller ones after it. -/
def Tracked (uninit : coords) (cs : List coords) (maxSize : Option Int) (d : coords) : Prop :=
  (cs = [] ∧ maxSize = none ∧ d = uninit) ∨
    (maxSize = some (area d) ∧ ∃ pre post, cs = pre ++ d :: post ∧
      (∀ c ∈ pre, area c ≤ area d) ∧ (∀ c ∈ post, area c < area d))

/-- The value is representable as an `int` (32 bits, two's complement). -/
def fitsInt (v : Int) : Bool := decide (-2 ^ 31 ≤ v) && decide (v < 2 ^ 31)

/-! ## Theorems -/

/-! ### Bit-level facts used by `isSlimeChunk` -/

theorem nat_ldiff_mask (m k : Nat) : Nat.ldiff (2 ^ k - 1) m = 2 ^ k - (m % 2 ^ k + 1) := by
  apply Nat.eq_of_testBit_eq
  intro i
  rw [Nat.testBit_ldiff, Nat.testBit_two_pow_sub_one,
    Nat.testBit_two_pow_sub_succ (Nat.mod_lt _ (Nat.two_pow_pos k)), Nat.testBit_mod_two_pow]
  by_cases h : i < k <;> simp [h]

theorem int_land_mask (x : Int) (k : Nat) :
    Int.land x ((2 ^ k - 1 : Nat) : Int) = x % 2 ^ k := by
  cases x with
  | ofNat m =>
    show ((m &&& (2 ^ k - 1) : Nat) : Int) = _
    rw [Nat.and_pow_two_sub_one_eq_mod]
    simp
  | negSucc m =>
    show ((Nat.ldiff (2 ^ k - 1) m : Nat) : Int) = _
    rw [nat_ldiff_mask, Int.negSucc_emod _ (by positivity)]
    have h1 : m % 2 ^ k < 2 ^ k := Nat.mod_lt _ (Nat.two_pow_pos k)
    push_cast [Nat.cast_sub (Nat.succ_le_of_lt h1)]
    ring

theorem nat_xor_mod (m c k : Nat) : (m ^^^ c) % 2 ^ k = ((m % 2 ^ k) ^^^ c) % 2 ^ k := by
  apply Nat.eq_of_testBit_eq
  intro i
  simp only [Nat.testBit_mod_two_pow, Nat.testBit_xor]
  by_cases h : i < k <;> simp [h]

theorem nat_xor_compl_mod (m c k : Nat) :
    2 ^ k - ((m ^^^ c) % 2 ^ k + 1) = ((2 ^ k - (m % 2 ^ k + 1)) ^^^ c) % 2 ^ k := by
  apply Nat.eq_of_testBit_eq
  intro i
  rw [Nat.testBit_two_pow_sub_succ (Nat.mod_lt _ (Nat.two_pow_pos k))]
  simp only [Nat.testBit_mod_two_pow, Nat.testBit_xor]
  rw [Nat.testBit_two_pow_sub_succ (Nat.mod_lt _ (Nat.two_pow_pos k))]
  simp only [Nat.testBit_mod_two_pow]
  by_cases h : i < k <;> simp [h]

theorem int_xor_mod (x : Int) (c k : Nat) :
    (Int.xor x (c : Int)) % 2 ^ k = ((((x % 2 ^ k).toNat ^^^ c) % 2 ^ k : Nat) : Int) := by
  cases x with
  | ofNat m =>
    show ((m ^^^ c : Nat) : Int) % 2 ^ k = _
    have h : ((m : Int) % 2 ^ k).toNat = m % 2 ^ k := by
      have : ((m : Int) % 2 ^ k) = ((m % 2 ^ k : Nat) : Int) := by push_cast; rfl
      rw [this]; exact Int.toNat_ofNat _
    show ((m ^^^ c : Nat) : Int) % 2 ^ k = (((((Int.ofNat m) % 2 ^ k).toNat ^^^ c) % 2 ^ k : Nat) : Int)
    rw [show Int.ofNat m = (m : Int) from rfl, h, ← nat_xor_mod]
    push_cast; rfl
  | negSucc m =>
    show Int.negSucc (m ^^^ c) % 2 ^ k = _
    have h1 : m % 2 ^ k < 2 ^ k := Nat.mod_lt _ (Nat.two_pow_pos k)
    have h2 : (m ^^^ c) % 2 ^ k < 2 ^ k := Nat.mod_lt _ (Nat.two_pow_pos k)
    have h : (Int.negSucc m % 2 ^ k).toNat = 2 ^ k - (m % 2 ^ k + 1) := by
      rw [Int.negSucc_emod _ (by positivity)]
      have : ((2:Int) ^ k - 1 - (m : Int) % 2 ^ k) = ((2 ^ k - (m % 2 ^ k + 1) : Nat) : Int) := by
        push_cast [Nat.cast_sub (Nat.succ_le_of_lt h1)]
        ring
      rw [this]; exact Int.toNat_ofNat _
    rw [h, ← nat_xor_compl_mod, Int.negSucc_emod _ (by positivity)]
    push_cast [Nat.cast_sub (Nat.succ_le_of_lt h2)]
    ring

theorem wrap64_emod48 (n : Int) : wrap64 n % 2 ^ 48 = n % 2 ^ 48 := by
  unfold wrap64; omega

theorem wrap64_emod64 (n : Int) : wrap64 n % 2 ^ 64 = n % 2 ^ 64 := by
  unfold wrap64; omega

theorem int_land_mask48 (x : Int) : Int.land x 0xFFFFFFFFFFFF = x % 2 ^ 48 := by
  have h := int_land_mask x 48
  norm_num at h
  exact h

theorem isSlimeChunk_s3 (n : Int) :
    Int.land (Int.xor (Int.xor (wrap64 n) 0x3ad8025f) 0x5DEECE66D) 0xFFFFFFFFFFFF
      = (mixed48 n : Int) := by
  rw [int_land_mask48]
  have e1 := int_xor_mod (Int.xor (wrap64 n) ((0x3ad8025f : Nat) : Int)) 0x5DEECE66D 48
  have e2 := int_xor_mod (wrap64 n) 0x3ad8025f 48
  rw [wrap64_emod48] at e2
  rw [e2] at e1
  rw [Int.toNat_ofNat, ← nat_xor_mod] at e1
  exact e1

theorem isSlimeChunk_eq (cv s : Int) :
    isSlimeChunk cv s = decide ((mixed48 (cv + s) * 0x5DEECE66D + 0xB) % 2 ^ 48 / 2 ^ 17 % 10 = 0) := by
  unfold isSlimeChunk
  simp only []
  rw [isSlimeChunk_s3, int_land_mask48, wrap64_emod48, Int.add_emod, wrap64_emod48,
    ← Int.add_emod, Int.shiftRight_eq_div_pow]
  set t := mixed48 (cv + s) with ht
  have hcast : (((t : Int) * 0x5DEECE66D + 0xB) % 2 ^ 48 / ((2 ^ 17 : Nat) : Int))
      = (((t * 0x5DEECE66D + 0xB) % 2 ^ 48 / 2 ^ 17 : Nat) : Int) := by
    push_cast; rfl
  rw [hcast, Int.tmod_eq_emod (Int.ofNat_nonneg _) (by norm_num)]
  generalize (t * 0x5DEECE66D + 0xB) % 2 ^ 48 / 2 ^ 17 = v
  have hv : ((v : Int) % 10) = ((v % 10 : Nat) : Int) := by push_cast; rfl
  rw [hv]
  by_cases h : v % 10 = 0
  · rw [h]; simp
  · have h' : ((v % 10 : Nat) : Int) ≠ 0 := by exact_mod_cast h
    have h2 : (((v % 10 : Nat) : Int) != 0) = true := by simpa using h'
    rw [h2]; simp [h]

theorem slimeFormulaU64_eq (cv s : Int) :
    slimeFormulaU64 (toU64 cv) (toU64 s)
      = (mixed48 (cv + s) * 0x5DEECE66D + 0xB) % 2 ^ 48 / 2 ^ 17 % 10 := by
  have hu : ((toU64 cv + toU64 s) % 2 ^ 64) % 2 ^ 48 = ((cv + s) % 2 ^ 48).toNat := by
    unfold toU64
    omega
  unfold slimeFormulaU64 mixed48
  rw [← hu]
  have e1 : ((toU64 cv + toU64 s) % 2 ^ 64 ^^^ 0x3ad8025f ^^^ 0x5DEECE66D) % 2 ^ 48
      = (((toU64 cv + toU64 s) % 2 ^ 64) % 2 ^ 48 ^^^ 0x3ad8025f ^^^ 0x5DEECE66D) % 2 ^ 48 := by
    rw [nat_xor_mod, nat_xor_mod ((toU64 cv + toU64 s) % 2 ^ 64), ← nat_xor_mod _ 0x5DEECE66D]
  rw [e1]
  generalize (((toU64 cv + toU64 s) % 2 ^ 64) % 2 ^ 48 ^^^ 0x3ad8025f ^^^ 0x5DEECE66D) % 2 ^ 48 = t
  have hd : (2 : Nat) ^ 48 ∣ 2 ^ 64 := pow_dvd_pow 2 (by norm_num)
  rw [Nat.mod_mod_of_dvd _ hd, Nat.add_mod, Nat.mod_mod_of_dvd _ hd, ← Nat.add_mod]


/-- C3: for all coordinate values and seeds, `isSlimeChunk` (computed on the signed types of
the code) holds exactly when the unsigned 64-bit formula of the specification, with its two
48-bit masks, gives 0. -/
theorem isSlimeChunk_iff_unsigned_formula (cv s : Int) :
    isSlimeChunk cv s = true ↔ slimeFormulaU64 (toU64 cv) (toU64 s) = 0 := by
  rw [isSlimeChunk_eq, slimeFormulaU64_eq]
  simp

/-! ### `getCoordinateValue` -/

theorem wrap32_id (n : Int) (h1 : -2 ^ 31 ≤ n) (h2 : n < 2 ^ 31) : wrap32 n = n := by
  unfold wrap32; omega

theorem wrap64_id (n : Int) (h1 : -2 ^ 63 ≤ n) (h2 : n < 2 ^ 63) : wrap64 n = n := by
  unfold wrap64; omega

theorem wrap32_bound (n : Int) : -2 ^ 31 ≤ wrap32 n ∧ wrap32 n < 2 ^ 31 := by
  unfold wrap32; omega

theorem wrap32_modEq (n : Int) : wrap32 n ≡ n [ZMOD 2 ^ 32] := by
  unfold Int.ModEq wrap32; omega

theorem wrap32_congr {a b : Int} (h : a ≡ b [ZMOD 2 ^ 32]) : wrap32 a = wrap32 b := by
  unfold Int.ModEq at h
  unfold wrap32; omega

theorem getCoordinateValue_int32 (x z : Int) :
    getCoordinateValue x z
      = wrap32 (x * x * 0x4c1906 + x * 0x5ac0db) + wrap32 (z * z) * 0x4307a7
        + wrap32 (z * 0x5f24f) := by
  unfold getCoordinateValue
  simp only []
  have e1 : wrap32 (wrap32 (wrap32 (x * x) * 0x4c1906) + wrap32 (x * 0x5ac0db))
      = wrap32 (x * x * 0x4c1906 + x * 0x5ac0db) :=
    wrap32_congr ((((wrap32_modEq _).trans ((wrap32_modEq (x * x)).mul_right _))).add
      (wrap32_modEq _))
  rw [e1]
  have b1 := wrap32_bound (x * x * 0x4c1906 + x * 0x5ac0db)
  have b2 := wrap32_bound (z * z)
  have b3 := wrap32_bound (z * 0x5f24f)
  generalize wrap32 (x * x * 0x4c1906 + x * 0x5ac0db) = p at *
  generalize wrap32 (z * z) = q at *
  generalize wrap32 (z * 0x5f24f) = r at *
  rw [wrap64_id (q * _) (by omega) (by omega), wrap64_id (p + _) (by omega) (by omega),
    wrap64_id _ (by omega) (by omega)]

theorem getCoordinateValue_small (x z : Int)
    (h : -20 ≤ x ∧ x ≤ 20 ∧ -5510 ≤ z ∧ z ≤ 5510) :
    getCoordinateValue x z = 0x4c1906 * x * x + 0x5ac0db * x + 0x4307a7 * z * z + 0x5f24f * z := by
  obtain ⟨h1, h2, h3, h4⟩ := h
  have hu1 : 0 ≤ x * x := mul_self_nonneg x
  have hu2 : x * x ≤ 400 := by nlinarith
  have hv1 : 0 ≤ z * z := mul_self_nonneg z
  have hv2 : z * z ≤ 30360100 := by nlinarith
  rw [getCoordinateValue_int32]
  have e1 : (0x4c1906 : Int) * x * x = x * x * 0x4c1906 := by ring
  have e2 : (0x4307a7 : Int) * z * z = z * z * 0x4307a7 := by ring
  rw [e1, e2]
  generalize x * x = u at *
  generalize z * z = v at *
  rw [wrap32_id _ (by omega) (by omega), wrap32_id _ (by omega) (by omega),
    wrap32_id _ (by omega) (by omega)]
  omega

theorem coordinatePolynomial64_small (x z : Int)
    (h : -20 ≤ x ∧ x ≤ 20 ∧ -5510 ≤ z ∧ z ≤ 5510) :
    coordinatePolynomial64 x z
      = 0x4c1906 * x * x + 0x5ac0db * x + 0x4307a7 * z * z + 0x5f24f * z := by
  obtain ⟨h1, h2, h3, h4⟩ := h
  have hu1 : 0 ≤ x * x := mul_self_nonneg x
  have hu2 : x * x ≤ 400 := by nlinarith
  have hv1 : 0 ≤ z * z := mul_self_nonneg z
  have hv2 : z * z ≤ 30360100 := by nlinarith
  unfold coordinatePolynomial64
  simp only []
  rw [wrap64_id (0x4c1906 * x) (by omega) (by omega), wrap64_id (0x4307a7 * z) (by omega) (by omega),
    wrap64_id (0x5ac0db * x) (by omega) (by omega), wrap64_id (0x5f24f * z) (by omega) (by omega)]
  have e1 : (0x4c1906 : Int) * x * x = x * x * 0x4c1906 := by ring
  have e2 : (0x4307a7 : Int) * z * z = z * z * 0x4307a7 := by ring
  rw [e1, e2]
  generalize x * x = u at *
  generalize z * z = v at *
  rw [wrap64_id (u * _) (by omega) (by omega), wrap64_id (v * _) (by omega) (by omega),
    wrap64_id (u * _ + _) (by omega) (by omega), wrap64_id (u * _ + _ + _) (by omega) (by omega),
    wrap64_id _ (by omega) (by omega)]


/-- C4, counterexample: at `x = 21`, `z = 0`, inside the supported range and the default scan
region, `getCoordinateValue` is `-1970737843` while the polynomial evaluated in 64-bit
arithmetic is `2324229453`: the `int` product `x * x * 0x4c1906` has left the 32-bit range. -/
theorem getCoordinateValue_differs_at_21_0 :
    ((-(2 : Int) ^ 20 ≤ 21 ∧ (21 : Int) ≤ 2 ^ 20) ∧ (-(2 : Int) ^ 20 ≤ 0 ∧ (0 : Int) ≤ 2 ^ 20)) ∧
      getCoordinateValue 21 0 = -1970737843 ∧
      coordinatePolynomial64 21 0 = 2324229453 ∧
      getCoordinateValue 21 0 ≠ coordinatePolynomial64 21 0 := by
  decide

/-- C4, amended: for all `x`, `z` the value is
`wrap32 (x*x*0x4c1906 + x*0x5ac0db) + wrap32 (z*z) * 0x4307a7 + wrap32 (z*0x5f24f)`, the
three wrapped terms being computed in 32-bit `int`; for `|x| ≤ 20` and `|z| ≤ 5510` nothing
wraps and the value is the polynomial of the specification, also as evaluated in 64-bit
arithmetic. -/
theorem getCoordinateValue_amended (x z : Int) :
    getCoordinateValue x z
        = wrap32 (x * x * 0x4c1906 + x * 0x5ac0db) + wrap32 (z * z) * 0x4307a7
          + wrap32 (z * 0x5f24f) ∧
      (-20 ≤ x ∧ x ≤ 20 ∧ -5510 ≤ z ∧ z ≤ 5510 →
        getCoordinateValue x z
            = 0x4c1906 * x * x + 0x5ac0db * x + 0x4307a7 * z * z + 0x5f24f * z ∧
          getCoordinateValue x z = coordinatePolynomial64 x z) := by
  refine ⟨getCoordinateValue_int32 x z, fun h => ⟨getCoordinateValue_small x z h, ?_⟩⟩
  rw [getCoordinateValue_small x z h, coordinatePolynomial64_small x z h]

/-- C4, witness of the amended statement at `x = 20`, `z = 5510`. -/
theorem getCoordinateValue_amended_witness :
    (-20 ≤ (20 : Int) ∧ (20 : Int) ≤ 20 ∧ -5510 ≤ (5510 : Int) ∧ (5510 : Int) ≤ 5510) ∧
      getCoordinateValue 20 5510
          = 0x4c1906 * 20 * 20 + 0x5ac0db * 20 + 0x4307a7 * 5510 * 5510 + 0x5f24f * 5510 ∧
        getCoordinateValue 20 5510 = coordinatePolynomial64 20 5510 :=
  ⟨by decide, (getCoordinateValue_amended 20 5510).2 (by decide)⟩

/-! ### Evaluation and structure of `getCluster` -/

theorem getCluster_eq_eval (w : World) (fuel : Nat) (x z cv depth : Int) (st : State) :
    getCluster w fuel x z cv depth st = getClusterEval w fuel x z cv depth st := by
  induction fuel generalizing x z cv depth st with
  | zero => rfl
  | succ n ih =>
    simp only [getCluster, getClusterEval, clusterGuard, isSlimeChunkEval, isSlimeChunk_eq, ih]

theorem getCluster_skip (w : World) (fuel : Nat) (x z cv depth : Int) (st : State)
    (h : clusterGuard w x z cv st = false) :
    getCluster w (fuel + 1) x z cv depth st = some st := by
  simp [getCluster, h]

theorem getCluster_enter (w : World) (fuel : Nat) (x z cv depth : Int) (st : State)
    (h : clusterGuard w x z cv st = true) :
    getCluster w (fuel + 1) x z cv depth st
      = (neighbourCalls w fuel x z (enterCell x z depth st)).bind fun s4 =>
          some (clusterTail w x z depth s4) := by
  simp [getCluster, neighbourCalls, h, Option.bind_assoc]

theorem clusterTail_depth_zero (w : World) (x z : Int) (st : State) :
    clusterTail w x z 0 st = st := by
  simp [clusterTail]

/-- A recursive call (`depth = 0`) only changes `checked_chunks`, and changes it as
`fillFrom` does. -/
theorem getCluster_depth_zero (w : World) (fuel : Nat) (x z : Int) (st : State) :
    getCluster w fuel x z (getCoordinateValue x z) 0 st
      = (fillFrom w.seed fuel ⟨x, z⟩ st.checked_chunks).map
          fun cc => { st with checked_chunks := cc } := by
  induction fuel generalizing x z st with
  | zero => rfl
  | succ n ih =>
    rw [getCluster, fillFrom]
    have hg : clusterGuard w x z (getCoordinateValue x z) st
        = (marked w.seed ⟨x, z⟩ &&
            !(st.checked_chunks.any fun c1 => decide (c1.x = x) && decide (c1.z = z))) := rfl
    rw [hg]
    split
    · simp only [ih, enterCell, clusterTail_depth_zero, if_neg (not_not.mpr rfl)]
      cases h1 : fillFrom w.seed n ⟨x + 1, z⟩ (st.checked_chunks ++ [⟨x, z⟩]) with
      | none => simp
      | some v1 =>
        simp only [Option.map_some', Option.some_bind]
        cases h2 : fillFrom w.seed n ⟨x - 1, z⟩ v1 with
        | none => simp
        | some v2 =>
          simp only [Option.map_some', Option.some_bind]
          cases h3 : fillFrom w.seed n ⟨x, z + 1⟩ v2 with
          | none => simp
          | some v3 =>
            simp only [Option.map_some', Option.some_bind]
            cases h4 : fillFrom w.seed n ⟨x, z - 1⟩ v3 with
            | none => simp
            | some v4 => simp
    · simp

/-- The four neighbour calls of an entered cell, on the list level. -/
theorem neighbourCalls_eq (w : World) (fuel : Nat) (x z : Int) (st : State) :
    neighbourCalls w fuel x z st
      = ((fillFrom w.seed fuel ⟨x + 1, z⟩ st.checked_chunks).bind fun v1 =>
          (fillFrom w.seed fuel ⟨x - 1, z⟩ v1).bind fun v2 =>
          (fillFrom w.seed fuel ⟨x, z + 1⟩ v2).bind fun v3 =>
          fillFrom w.seed fuel ⟨x, z - 1⟩ v3).map
          fun cc => { st with checked_chunks := cc } := by
  simp only [neighbourCalls, getCluster_depth_zero]
  cases h1 : fillFrom w.seed fuel ⟨x + 1, z⟩ st.checked_chunks with
  | none => simp
  | some v1 =>
    simp only [Option.map_some', Option.some_bind]
    cases h2 : fillFrom w.seed fuel ⟨x - 1, z⟩ v1 with
    | none => simp
    | some v2 =>
      simp only [Option.map_some', Option.some_bind]
      cases h3 : fillFrom w.seed fuel ⟨x, z + 1⟩ v2 with
      | none => simp
      | some v3 => simp

/-! ### Registry, acceptance and reporting -/

/-- C5, evaluation at the failing input: seed 0, `min_size = 1`, the isolated marked cells
`(2, 2)` and `(2, 4)`. The scan registers the cluster `[(2, 2)]` first; when the flood-fill
from `(2, 4)` has produced the cluster `[(2, 4)]`, its first insertion into the registry
reports `false`, and the registry keeps `[(2, 2)]` only. -/
theorem getCluster_first_insertion_rejected :
    getCluster (mkWorld 0 10 1 1 true false true) 2 2 2 (getCoordinateValue 2 2) 1
        ⟨[], [], [], []⟩ = some ⟨[⟨2, 2⟩], [[⟨2, 2⟩]], [], []⟩ ∧
      neighbourCalls (mkWorld 0 10 1 1 true false true) 1 2 4
        (enterCell 2 4 1 ⟨[⟨2, 2⟩], [[⟨2, 2⟩]], [], []⟩)
        = some ⟨[⟨2, 4⟩], [[⟨2, 2⟩]], [], []⟩ ∧
      set_insert [[⟨2, 2⟩]] (stable_sort [⟨2, 4⟩]) = ([[⟨2, 2⟩]], false) ∧
      getCluster (mkWorld 0 10 1 1 true false true) 2 2 4 (getCoordinateValue 2 4) 1
        ⟨[⟨2, 2⟩], [[⟨2, 2⟩]], [], []⟩ = some ⟨[⟨2, 4⟩], [[⟨2, 2⟩]], [], []⟩ := by
  simp only [neighbourCalls, getCluster_eq_eval]
  decide

/-- C6, evaluation at the failing input: seed 35, `min_size = 1`, logging on. The cluster
`{(0, -6), (1, -6)}` is registered and posted. The cluster `{(0, 0), (1, 0)}`, found later in
the scan, has other coordinates, yet its insertion reports `false`: the registry and the list
of posted records stay as they were. -/
theorem getCluster_distinct_cluster_suppressed :
    getCluster (mkWorld 35 12 1 1 true false true) 3 0 (-6) (getCoordinateValue 0 (-6)) 1
        ⟨[], [], [], []⟩
        = some ⟨[⟨0, -6⟩, ⟨1, -6⟩], [[⟨0, -6⟩, ⟨1, -6⟩]],
            [⟨35, 0, -6, 2, [⟨0, -6⟩, ⟨1, -6⟩]⟩], [⟨35, [⟨0, -6⟩, ⟨1, -6⟩], ⟨0, -96⟩, 2⟩]⟩ ∧
      getCluster (mkWorld 35 12 1 1 true false true) 3 0 0 (getCoordinateValue 0 0) 1
        ⟨[⟨0, -6⟩, ⟨1, -6⟩], [[⟨0, -6⟩, ⟨1, -6⟩]],
            [⟨35, 0, -6, 2, [⟨0, -6⟩, ⟨1, -6⟩]⟩], [⟨35, [⟨0, -6⟩, ⟨1, -6⟩], ⟨0, -96⟩, 2⟩]⟩
        = some ⟨[⟨0, 0⟩, ⟨1, 0⟩], [[⟨0, -6⟩, ⟨1, -6⟩]],
            [⟨35, 0, -6, 2, [⟨0, -6⟩, ⟨1, -6⟩]⟩], [⟨35, [⟨0, -6⟩, ⟨1, -6⟩], ⟨0, -96⟩, 2⟩]⟩ ∧
      stable_sort [⟨0, 0⟩, ⟨1, 0⟩] ≠ stable_sort [⟨0, -6⟩, ⟨1, -6⟩] ∧
      (set_insert [stable_sort [⟨0, -6⟩, ⟨1, -6⟩]] (stable_sort [⟨0, 0⟩, ⟨1, 0⟩])).2 = false := by
  simp only [getCluster_eq_eval]
  decide

/-- C7, counterexample: `useRectanglesOnly = false`, `min_size = 4`, one-wide rectangles
disallowed. The 5-cell L-shaped cluster reaches scoring, its best rectangle is 1 x 4 (area
4, below 5), and the acceptance decision is `false`; being newly registered with logging on,
it is neither printed nor posted. -/
theorem acceptance_L_shape_rejected :
    toU64 4 ≤ (stable_sort [⟨0, 0⟩, ⟨0, 1⟩, ⟨0, 2⟩, ⟨0, 3⟩, ⟨1, 0⟩]).length ∧
      largestRectOf (stable_sort [⟨0, 0⟩, ⟨0, 1⟩, ⟨0, 2⟩, ⟨0, 3⟩, ⟨1, 0⟩]) = ⟨1, 4⟩ ∧
      acceptance (mkWorld 0 10 4 1 true false false)
        (largestRectOf (stable_sort [⟨0, 0⟩, ⟨0, 1⟩, ⟨0, 2⟩, ⟨0, 3⟩, ⟨1, 0⟩]))
        (stable_sort [⟨0, 0⟩, ⟨0, 1⟩, ⟨0, 2⟩, ⟨0, 3⟩, ⟨1, 0⟩]) = false ∧
      clusterTail (mkWorld 0 10 4 1 true false false) 0 0 1
        ⟨[⟨0, 0⟩, ⟨0, 1⟩, ⟨0, 2⟩, ⟨0, 3⟩, ⟨1, 0⟩], [], [], []⟩
        = ⟨[⟨0, 0⟩, ⟨0, 1⟩, ⟨0, 2⟩, ⟨0, 3⟩, ⟨1, 0⟩],
            [[⟨0, 0⟩, ⟨0, 1⟩, ⟨0, 2⟩, ⟨0, 3⟩, ⟨1, 0⟩]], [], []⟩ := by
  decide

/-- C7, amended: for every cluster that reaches scoring the acceptance decision is
`(returnOnlyRectangles ? rectArea > min_size : clusterSize > min_size)` conjoined with
`(allowOneWides or (rectWidth != 1 and rectHeight != 1))`; with `useRectanglesOnly = false`,
`min_size = 4` and one-wide rectangles allowed, the 5-cell L-shaped cluster is accepted
although its best rectangle has area 4. -/
theorem acceptance_eq_policy (w : World) (d : coords) (cc : List coords)
    (hmin : -2 ^ 31 ≤ w.min_size ∧ w.min_size < 2 ^ 31) (hlen : cc.length < 2 ^ 63)
    (hreach : toU64 w.min_size ≤ cc.length) :
    acceptance w d cc
        = ((if w.returnOnlyRectangles then decide (d.x * d.z > w.min_size)
              else decide ((cc.length : Int) > w.min_size)) &&
            (w.allowOneWides || (d.x != 1 && d.z != 1))) ∧
      (largestRectOf (stable_sort [⟨0, 0⟩, ⟨0, 1⟩, ⟨0, 2⟩, ⟨0, 3⟩, ⟨1, 0⟩])).x *
          (largestRectOf (stable_sort [⟨0, 0⟩, ⟨0, 1⟩, ⟨0, 2⟩, ⟨0, 3⟩, ⟨1, 0⟩])).z < 5 ∧
      acceptance (mkWorld 0 10 4 1 true false true)
        (largestRectOf (stable_sort [⟨0, 0⟩, ⟨0, 1⟩, ⟨0, 2⟩, ⟨0, 3⟩, ⟨1, 0⟩]))
        (stable_sort [⟨0, 0⟩, ⟨0, 1⟩, ⟨0, 2⟩, ⟨0, 3⟩, ⟨1, 0⟩]) = true := by
  refine ⟨?_, by decide, by decide⟩
  obtain ⟨h1, h2⟩ := hmin
  have hnn : 0 ≤ w.min_size := by
    by_contra hneg
    have : toU64 w.min_size ≥ 2 ^ 63 := by unfold toU64; omega
    omega
  have hu : toU64 w.min_size = w.min_size.toNat := by unfold toU64; omega
  unfold acceptance should_return_cluster allowOneWidesLocal
  rw [hu]
  have hiff : (cc.length > w.min_size.toNat) ↔ ((cc.length : Int) > w.min_size) := by omega
  cases hr : w.returnOnlyRectangles <;> cases ha : w.allowOneWides <;> simp [hiff]

/-- C7, witness: the amended statement at the L-shaped cluster with `min_size = 4`,
`useRectanglesOnly = false` and one-wide rectangles allowed. -/
theorem acceptance_eq_policy_witness :
    ((-2 ^ 31 ≤ (mkWorld 0 10 4 1 true false true).min_size ∧
        (mkWorld 0 10 4 1 true false true).min_size < 2 ^ 31) ∧
      (stable_sort [⟨0, 0⟩, ⟨0, 1⟩, ⟨0, 2⟩, ⟨0, 3⟩, ⟨1, 0⟩]).length < 2 ^ 63 ∧
      toU64 (mkWorld 0 10 4 1 true false true).min_size
        ≤ (stable_sort [⟨0, 0⟩, ⟨0, 1⟩, ⟨0, 2⟩, ⟨0, 3⟩, ⟨1, 0⟩]).length) ∧
      acceptance (mkWorld 0 10 4 1 true false true) ⟨1, 4⟩
          (stable_sort [⟨0, 0⟩, ⟨0, 1⟩, ⟨0, 2⟩, ⟨0, 3⟩, ⟨1, 0⟩])
        = ((if (mkWorld 0 10 4 1 true false true).returnOnlyRectangles then
              decide ((1 : Int) * 4 > (mkWorld 0 10 4 1 true false true).min_size)
            else decide
              (((stable_sort [⟨0, 0⟩, ⟨0, 1⟩, ⟨0, 2⟩, ⟨0, 3⟩, ⟨1, 0⟩]).length : Int)
                > (mkWorld 0 10 4 1 true false true).min_size)) &&
            ((mkWorld 0 10 4 1 true false true).allowOneWides ||
              ((1 : Int) != 1 && (4 : Int) != 1))) :=
  ⟨by decide,
    (acceptance_eq_policy (mkWorld 0 10 4 1 true false true) ⟨1, 4⟩
      (stable_sort [⟨0, 0⟩, ⟨0, 1⟩, ⟨0, 2⟩, ⟨0, 3⟩, ⟨1, 0⟩])
      (by decide) (by decide) (by decide)).1⟩

/-- C8, counterexample: (a) logging off, rectangles-only, `min_size = 4`: the 2 x 3 block is
newly registered and accepted (area 6 > 4), yet nothing is posted; (b) logging on,
rectangles-only off, `min_size = 4`: the 5-cell V-shaped cluster is newly registered and
accepted, it is printed, yet not posted, its best rectangle having area 3 < 4. -/
theorem accepted_cluster_not_forwarded :
    ((set_insert [] (stable_sort [⟨0, 0⟩, ⟨0, 1⟩, ⟨0, 2⟩, ⟨1, 0⟩, ⟨1, 1⟩, ⟨1, 2⟩])).2 = true ∧
      acceptance (mkWorld 0 10 4 1 false true true)
        (largestRectOf (stable_sort [⟨0, 0⟩, ⟨0, 1⟩, ⟨0, 2⟩, ⟨1, 0⟩, ⟨1, 1⟩, ⟨1, 2⟩]))
        (stable_sort [⟨0, 0⟩, ⟨0, 1⟩, ⟨0, 2⟩, ⟨1, 0⟩, ⟨1, 1⟩, ⟨1, 2⟩]) = true ∧
      (registerAndReport (mkWorld 0 10 4 1 false true true) 0 0
        ⟨[⟨0, 0⟩, ⟨0, 1⟩, ⟨0, 2⟩, ⟨1, 0⟩, ⟨1, 1⟩, ⟨1, 2⟩], [], [], []⟩).posted = []) ∧
    ((set_insert [] (stable_sort [⟨0, 0⟩, ⟨0, 1⟩, ⟨0, 2⟩, ⟨1, 0⟩, ⟨2, 0⟩])).2 = true ∧
      acceptance (mkWorld 0 10 4 1 true false true)
        (largestRectOf (stable_sort [⟨0, 0⟩, ⟨0, 1⟩, ⟨0, 2⟩, ⟨1, 0⟩, ⟨2, 0⟩]))
        (stable_sort [⟨0, 0⟩, ⟨0, 1⟩, ⟨0, 2⟩, ⟨1, 0⟩, ⟨2, 0⟩]) = true ∧
      (registerAndReport (mkWorld 0 10 4 1 true false true) 0 0
        ⟨[⟨0, 0⟩, ⟨0, 1⟩, ⟨0, 2⟩, ⟨1, 0⟩, ⟨2, 0⟩], [], [], []⟩).console
        = [⟨0, 0, 0, 5, [⟨0, 0⟩, ⟨0, 1⟩, ⟨0, 2⟩, ⟨1, 0⟩, ⟨2, 0⟩]⟩] ∧
      (registerAndReport (mkWorld 0 10 4 1 true false true) 0 0
        ⟨[⟨0, 0⟩, ⟨0, 1⟩, ⟨0, 2⟩, ⟨1, 0⟩, ⟨2, 0⟩], [], [], []⟩).posted = []) := by
  decide

/-- C8, amended: a cluster that reaches the registration block is forwarded to the sink (one
record appended to the posted requests) exactly when it is newly registered, logging is on,
the acceptance policy holds and the area of its best rectangle is at least `min_size`;
otherwise nothing is posted. -/
theorem registerAndReport_posted (w : World) (x z : Int) (st : State) :
    (registerAndReport w x z st).posted
      = if ((set_insert st.slime_clusters (stable_sort st.checked_chunks)).2 && w.logging &&
            acceptance w (largestRectOf (stable_sort st.checked_chunks))
              (stable_sort st.checked_chunks) &&
            decide ((largestRectOf (stable_sort st.checked_chunks)).x *
              (largestRectOf (stable_sort st.checked_chunks)).z ≥ w.min_size)) = true then
          st.posted ++
            [⟨w.seed, stable_sort st.checked_chunks,
              ⟨((stable_sort st.checked_chunks).headD ⟨0, 0⟩).x * 16,
                ((stable_sort st.checked_chunks).headD ⟨0, 0⟩).z * 16⟩,
              (largestRectOf (stable_sort st.checked_chunks)).x *
                (largestRectOf (stable_sort st.checked_chunks)).z⟩]
        else st.posted := by
  unfold registerAndReport acceptance largestRectOf
  simp only []
  cases h1 : (set_insert st.slime_clusters (stable_sort st.checked_chunks)).2 <;>
    cases h2 : w.logging <;>
    cases h3 : should_return_cluster w
      (createSubMatrixHistogram ⟨0, 0⟩ (generateClusterRegion (stable_sort st.checked_chunks)))
      (stable_sort st.checked_chunks) <;>
    cases h4 : allowOneWidesLocal w
      (createSubMatrixHistogram ⟨0, 0⟩ (generateClusterRegion (stable_sort st.checked_chunks))) <;>
    simp
  split <;> simp_all

/-! ### Flood-fill -/

theorem any_coords_iff (V : List coords) (c : coords) :
    (V.any fun c1 => decide (c1.x = c.x) && decide (c1.z = c.z)) = true ↔ c ∈ V := by
  simp only [List.any_eq_true, Bool.and_eq_true, decide_eq_true_eq]
  constructor
  · rintro ⟨c1, h, hx, hz⟩
    have : c1 = c := by
      cases c1; cases c; simp_all
    exact this ▸ h
  · intro h
    exact ⟨c, h, rfl, rfl⟩

theorem fillFrom_succ (seed : Int) (fuel : Nat) (c : coords) (V : List coords) :
    fillFrom seed (fuel + 1) c V
      = if marked seed c = true ∧ c ∉ V then fillNeighbours seed fuel c (V ++ [c])
        else some V := by
  rw [fillFrom, fillNeighbours]
  by_cases hm : marked seed c = true <;> by_cases hv : c ∈ V
  · have := (any_coords_iff V c).mpr hv
    simp [hm, hv, this]
  · have : (V.any fun c1 => decide (c1.x = c.x) && decide (c1.z = c.z)) = false := by
      rw [Bool.eq_false_iff]; exact fun h => hv ((any_coords_iff V c).mp h)
    simp [hm, hv, this]
  · simp [hm]
  · simp [hm]

theorem markedStep_symm (seed : Int) (a b : coords) (h : MarkedStep seed a b) :
    MarkedStep seed b a := by
  obtain ⟨ha, hb, hn⟩ := h
  refine ⟨hb, ha, ?_⟩
  simp only [neighbours, List.mem_cons, List.mem_singleton, List.not_mem_nil, or_false] at hn ⊢
  rcases hn with h | h | h | h <;> subst h <;> cases a <;> simp

theorem fillNeighbours_spec (seed : Int) (fuel : Nat)
    (hIH : ∀ c V V1, fillFrom seed fuel c V = some V1 → FillSpec seed c V V1)
    (c : coords) (V0 V4 : List coords) (hc : marked seed c = true)
    (h : fillNeighbours seed fuel c V0 = some V4) :
    (∀ v ∈ V0, v ∈ V4) ∧
      (∀ v ∈ V4, v ∈ V0 ∨ Relation.ReflTransGen (MarkedStep seed) c v) ∧
      (V0.Nodup → V4.Nodup) ∧
      (∀ n ∈ neighbours c, marked seed n = true → n ∈ V4) ∧
      (∀ F : coords → Prop, ClosedExcept seed V0 F → ClosedExcept seed V4 F) := by
  unfold fillNeighbours at h
  simp only [Option.bind_eq_some] at h
  obtain ⟨V1, h1, V2, h2, V3, h3, h4⟩ := h
  have s1 := hIH _ _ _ h1
  have s2 := hIH _ _ _ h2
  have s3 := hIH _ _ _ h3
  have s4 := hIH _ _ _ h4
  have reach : ∀ n ∈ neighbours c, ∀ v, marked seed n = true →
      Relation.ReflTransGen (MarkedStep seed) n v →
      Relation.ReflTransGen (MarkedStep seed) c v := by
    intro n hn v hmn hr
    exact Relation.ReflTransGen.head ⟨hc, hmn, hn⟩ hr
  refine ⟨?_, ?_, ?_, ?_, ?_⟩
  · intro v hv
    exact s4.mono _ (s3.mono _ (s2.mono _ (s1.mono _ hv)))
  · intro v hv
    rcases s4.sound v hv with hv3 | ⟨hm, hr⟩
    · rcases s3.sound v hv3 with hv2 | ⟨hm, hr⟩
      · rcases s2.sound v hv2 with hv1 | ⟨hm, hr⟩
        · rcases s1.sound v hv1 with hv0 | ⟨hm, hr⟩
          · exact Or.inl hv0
          · exact Or.inr (reach _ (by simp [neighbours]) v hm hr)
        · exact Or.inr (reach _ (by simp [neighbours]) v hm hr)
      · exact Or.inr (reach _ (by simp [neighbours]) v hm hr)
    · exact Or.inr (reach _ (by simp [neighbours]) v hm hr)
  · intro hnd
    exact s4.nodup (s3.nodup (s2.nodup (s1.nodup hnd)))
  · intro n hn hmn
    simp only [neighbours, List.mem_cons, List.mem_singleton, List.not_mem_nil, or_false] at hn
    rcases hn with h | h | h | h <;> subst h
    · exact s4.mono _ (s3.mono _ (s2.mono _ (s1.self hmn)))
    · exact s4.mono _ (s3.mono _ (s2.self hmn))
    · exact s4.mono _ (s3.self hmn)
    · exact s4.self hmn
  · intro F hF
    exact s4.closed F (s3.closed F (s2.closed F (s1.closed F hF)))

theorem closedExcept_push (seed : Int) (V : List coords) (c : coords) (F : coords → Prop)
    (h : ClosedExcept seed V F) : ClosedExcept seed (V ++ [c]) (fun u => F u ∨ u = c) := by
  intro u hu hnF n hn hmn
  simp only [not_or] at hnF
  have huV : u ∈ V := by
    rcases List.mem_append.mp hu with h1 | h1
    · exact h1
    · exact absurd (List.mem_singleton.mp h1) hnF.2
  exact List.mem_append_left _ (h u huV hnF.1 n hn hmn)

theorem closedExcept_close (seed : Int) (V : List coords) (c : coords) (F : coords → Prop)
    (h : ClosedExcept seed V (fun u => F u ∨ u = c))
    (hc : ∀ n ∈ neighbours c, marked seed n = true → n ∈ V) : ClosedExcept seed V F := by
  intro u hu hnF n hn hmn
  by_cases huc : u = c
  · subst huc; exact hc n hn hmn
  · exact h u hu (by simp [hnF, huc]) n hn hmn

theorem fillFrom_spec (seed : Int) (fuel : Nat) :
    ∀ c V V1, fillFrom seed fuel c V = some V1 → FillSpec seed c V V1 := by
  induction fuel with
  | zero => intro c V V1 h; simp [fillFrom] at h
  | succ n ih =>
    intro c V V1 h
    rw [fillFrom_succ] at h
    by_cases hg : marked seed c = true ∧ c ∉ V
    · rw [if_pos hg] at h
      obtain ⟨hm, hv⟩ := hg
      obtain ⟨p1, p2, p3, p4, p5⟩ := fillNeighbours_spec seed n ih c _ _ hm h
      refine ⟨?_, ?_, ?_, ?_, ?_⟩
      · intro v hv0; exact p1 v (List.mem_append_left _ hv0)
      · intro v hv1
        rcases p2 v hv1 with h0 | hr
        · rcases List.mem_append.mp h0 with h00 | h01
          · exact Or.inl h00
          · rw [List.mem_singleton.mp h01]
            exact Or.inr ⟨hm, Relation.ReflTransGen.refl⟩
        · exact Or.inr ⟨hm, hr⟩
      · intro hnd
        apply p3
        rw [List.nodup_append]
        refine ⟨hnd, List.nodup_singleton c, ?_⟩
        intro a ha hb
        rw [List.mem_singleton.mp hb] at ha
        exact hv ha
      · intro _; exact p1 c (by simp)
      · intro F hF
        exact closedExcept_close seed V1 c F (p5 _ (closedExcept_push seed V c F hF)) p4
    · rw [if_neg hg] at h
      simp only [Option.some.injEq] at h
      subst h
      refine ⟨fun v hv0 => hv0, fun v hv1 => Or.inl hv1, fun hnd => hnd, ?_, fun F hF => hF⟩
      intro hm
      by_contra hv
      exact hg ⟨hm, hv⟩

theorem inRegion_marked (seed : Int) (o c : coords) (h : InRegion seed o c) :
    marked seed c = true := by
  obtain ⟨ho, hr⟩ := h
  cases hr with
  | refl => exact ho
  | tail _ hs => exact hs.2.1

theorem inRegion_reach (seed : Int) (o c v : coords) (h : InRegion seed o c)
    (hr : Relation.ReflTransGen (MarkedStep seed) c v) : InRegion seed o v :=
  ⟨h.1, h.2.trans hr⟩

theorem inRegion_neighbour (seed : Int) (o c n : coords) (h : InRegion seed o c)
    (hn : n ∈ neighbours c) (hm : marked seed n = true) : InRegion seed o n :=
  inRegion_reach seed o c n h
    (Relation.ReflTransGen.single ⟨inRegion_marked seed o c h, hm, hn⟩)

theorem inRegion_symm (seed : Int) (o c : coords) (h : InRegion seed o c) :
    InRegion seed c o := by
  refine ⟨inRegion_marked seed o c h, ?_⟩
  have hsymm : Symmetric (MarkedStep seed) := fun a b hab => markedStep_symm seed a b hab
  exact (Relation.ReflTransGen.symmetric hsymm) h.2

theorem inRegion_same (seed : Int) (o o1 : coords) (h : InRegion seed o o1) (c : coords) :
    InRegion seed o1 c ↔ InRegion seed o c :=
  ⟨fun h1 => inRegion_reach seed o o1 c h h1.2,
    fun h1 => inRegion_reach seed o1 o c (inRegion_symm seed o o1 h) h1.2⟩

theorem unvisited_card_le (R : Finset coords) (V V1 : List coords) (h : ∀ v ∈ V, v ∈ V1) :
    (R.filter fun c => c ∉ V1).card ≤ (R.filter fun c => c ∉ V).card := by
  apply Finset.card_le_card
  intro c hc
  simp only [Finset.mem_filter] at hc ⊢
  exact ⟨hc.1, fun hv => hc.2 (h c hv)⟩

theorem unvisited_card_lt (R : Finset coords) (V : List coords) (c : coords) (hc : c ∈ R)
    (hv : c ∉ V) :
    (R.filter fun u => u ∉ V ++ [c]).card < (R.filter fun u => u ∉ V).card := by
  apply Finset.card_lt_card
  rw [Finset.ssubset_iff_of_subset]
  · exact ⟨c, by simp [hc, hv], by simp⟩
  · intro u hu
    simp only [Finset.mem_filter, List.mem_append, not_or] at hu ⊢
    exact ⟨hu.1, hu.2.1⟩

theorem fillFrom_total (seed : Int) (o : coords) (R : Finset coords)
    (hR : ∀ c, InRegion seed o c → c ∈ R) :
    ∀ fuel c V, (∀ v ∈ V, InRegion seed o v) → (marked seed c = true → InRegion seed o c) →
      (R.filter fun u => u ∉ V).card < fuel → ∃ V1, fillFrom seed fuel c V = some V1 := by
  intro fuel
  induction fuel with
  | zero => intro c V _ _ h; omega
  | succ n ih =>
    intro c V hV hc hcard
    rw [fillFrom_succ]
    by_cases hg : marked seed c = true ∧ c ∉ V
    · rw [if_pos hg]
      obtain ⟨hm, hv⟩ := hg
      have hPc := hc hm
      have hV0 : ∀ v ∈ V ++ [c], InRegion seed o v := by
        intro v hv0
        rcases List.mem_append.mp hv0 with h1 | h1
        · exact hV v h1
        · rw [List.mem_singleton.mp h1]; exact hPc
      have hcard0 : (R.filter fun u => u ∉ V ++ [c]).card < n := by
        have := unvisited_card_lt R V c (hR c hPc) hv
        omega
      have next : ∀ (k : coords) (W : List coords), k ∈ neighbours c →
          (∀ v ∈ W, InRegion seed o v) → (R.filter fun u => u ∉ W).card < n →
          ∃ W1, fillFrom seed n k W = some W1 ∧ (∀ v ∈ W1, InRegion seed o v) ∧
            (R.filter fun u => u ∉ W1).card < n := by
        intro k W hk hW hcW
        have hkP : marked seed k = true → InRegion seed o k :=
          fun hmk => inRegion_neighbour seed o c k hPc hk hmk
        obtain ⟨W1, hW1⟩ := ih k W hW hkP hcW
        have s := fillFrom_spec seed n k W W1 hW1
        refine ⟨W1, hW1, ?_, ?_⟩
        · intro v hv1
          rcases s.sound v hv1 with h0 | ⟨hmk, hr⟩
          · exact hW v h0
          · exact inRegion_reach seed o k v (hkP hmk) hr
        · have := unvisited_card_le R W W1 s.mono
          omega
      obtain ⟨V1, h1, hP1, hc1⟩ := next ⟨c.x + 1, c.z⟩ _ (by simp [neighbours]) hV0 hcard0
      obtain ⟨V2, h2, hP2, hc2⟩ := next ⟨c.x - 1, c.z⟩ _ (by simp [neighbours]) hP1 hc1
      obtain ⟨V3, h3, hP3, hc3⟩ := next ⟨c.x, c.z + 1⟩ _ (by simp [neighbours]) hP2 hc2
      obtain ⟨V4, h4, _, _⟩ := next ⟨c.x, c.z - 1⟩ _ (by simp [neighbours]) hP3 hc3
      exact ⟨V4, by simp [fillNeighbours, h1, h2, h3, h4]⟩
    · rw [if_neg hg]
      exact ⟨V, rfl⟩

theorem fillNeighbours_total (seed : Int) (o : coords) (R : Finset coords)
    (hR : ∀ c, InRegion seed o c → c ∈ R) (ho : marked seed o = true) :
    ∃ V4, fillNeighbours seed (R.card + 1) o [o] = some V4 := by
  have h := fillFrom_total seed o R hR (R.card + 2) o [] (by simp)
    (fun hm => ⟨hm, Relation.ReflTransGen.refl⟩)
    (by
      have : (R.filter fun u => u ∉ ([] : List coords)).card ≤ R.card :=
        Finset.card_le_card (Finset.filter_subset _ _)
      omega)
  obtain ⟨V1, h1⟩ := h
  rw [fillFrom_succ, if_pos ⟨ho, by simp⟩] at h1
  exact ⟨V1, by simpa using h1⟩

/-- The visited list after the four neighbour calls of an initial call at a marked origin
is, without repetition, the 4-connected marked region of the origin. -/
theorem fillNeighbours_region (seed : Int) (fuel : Nat) (o : coords) (V4 : List coords)
    (ho : marked seed o = true) (h : fillNeighbours seed fuel o [o] = some V4) :
    V4.Nodup ∧ ∀ c, c ∈ V4 ↔ InRegion seed o c := by
  obtain ⟨p1, p2, p3, p4, p5⟩ :=
    fillNeighbours_spec seed fuel (fillFrom_spec seed fuel) o [o] V4 ho h
  have hclosed : ClosedExcept seed V4 (fun _ => False) := by
    apply closedExcept_close seed V4 o _ _ p4
    apply p5
    intro u hu hnF
    simp only [false_or] at hnF
    exact absurd (List.mem_singleton.mp hu) hnF
  refine ⟨p3 (List.nodup_singleton o), fun c => ⟨?_, ?_⟩⟩
  · intro hc
    rcases p2 c hc with h0 | hr
    · rw [List.mem_singleton.mp h0]; exact ⟨ho, Relation.ReflTransGen.refl⟩
    · exact ⟨ho, hr⟩
  · rintro ⟨_, hr⟩
    induction hr with
    | refl => exact p1 o (by simp)
    | tail _ hs ih => exact hclosed _ ih (fun hF => hF) _ hs.2.2 hs.2.1

theorem neighbourCalls_enter (w : World) (fuel : Nat) (x z : Int) (st : State) :
    neighbourCalls w fuel x z (enterCell x z 1 st)
      = (fillNeighbours w.seed fuel ⟨x, z⟩ [⟨x, z⟩]).map
          fun cc => { st with checked_chunks := cc } := by
  rw [neighbourCalls_eq]
  simp [enterCell, fillNeighbours]

theorem clusterGuard_marked (w : World) (x z : Int) (st : State)
    (h : clusterGuard w x z (getCoordinateValue x z) st = true) :
    marked w.seed ⟨x, z⟩ = true := by
  simp only [clusterGuard, Bool.and_eq_true] at h
  exact h.1

/-! ### Largest rectangle in a histogram -/

theorem bar_append_left (pre : List Int) (h j : Int) (h0 : 0 ≤ j) (h1 : j < pre.length) :
    bar (pre ++ [h]) j = bar pre j := by
  unfold bar
  have hj : j.toNat < pre.length := by omega
  rw [List.getD_append _ _ _ _ hj]

theorem bar_append_last (pre : List Int) (h : Int) : bar (pre ++ [h]) pre.length = h := by
  unfold bar
  simp [List.getD_append_right]

theorem popLoop_eq (h i : Int) (S : List (Int × Int)) (tp : Int) (M : Option Int)
    (d : coords) :
    popLoop h i S tp M d
      = ⟨S.dropWhile fun e => decide (h < e.1),
          lastPos (S.takeWhile fun e => decide (h < e.1)) tp,
          (foldPops i (S.takeWhile fun e => decide (h < e.1)) (M, d)).1,
          (foldPops i (S.takeWhile fun e => decide (h < e.1)) (M, d)).2⟩ := by
  induction S generalizing tp M d with
  | nil => simp [popLoop, lastPos, foldPops]
  | cons e rest ih =>
    obtain ⟨th, p⟩ := e
    by_cases hlt : h < th
    · simp [popLoop, hlt, List.takeWhile, List.dropWhile, lastPos, foldPops, ih]
    · simp [popLoop, hlt, List.takeWhile, List.dropWhile, lastPos, foldPops]

theorem flushLoop_eq (i : Int) (S : List (Int × Int)) (tp : Int) (M : Option Int)
    (d : coords) :
    flushLoop i S tp M d = ⟨[], lastPos S tp, (foldPops i S (M, d)).1, (foldPops i S (M, d)).2⟩ := by
  induction S generalizing tp M d with
  | nil => simp [flushLoop, lastPos, foldPops]
  | cons e rest ih =>
    obtain ⟨th, p⟩ := e
    simp [flushLoop, lastPos, foldPops, ih]

theorem recordPop_fst (i th tp : Int) (M : Option Int) (d : coords) :
    ∃ v, (recordPop i th tp M d).1 = some v ∧ th * (i - tp) ≤ v ∧ ∀ m, M = some m → m ≤ v := by
  cases M with
  | none => exact ⟨th * (i - tp), rfl, le_refl _, by simp⟩
  | some m =>
    refine ⟨max (th * (i - tp)) m, rfl, le_max_left _ _, ?_⟩
    intro m1 hm1
    simp only [Option.some.injEq] at hm1
    subst hm1
    exact le_max_right _ _

theorem foldPops_bound (i : Int) (popped : List (Int × Int)) (M : Option Int) (d : coords) :
    (∀ v, M = some v → ∃ v1, (foldPops i popped (M, d)).1 = some v1 ∧ v ≤ v1) ∧
      (∀ e ∈ popped, ∃ v1, (foldPops i popped (M, d)).1 = some v1 ∧ e.1 * (i - e.2) ≤ v1) := by
  induction popped generalizing M d with
  | nil =>
    refine ⟨fun v hv => ⟨v, by simpa [foldPops] using hv, le_refl _⟩, ?_⟩
    intro e he; simp at he
  | cons e rest ih =>
    obtain ⟨v0, hv0, ha, hb⟩ := recordPop_fst i e.1 e.2 M d
    have hrec : recordPop i e.1 e.2 M d = (some v0, (recordPop i e.1 e.2 M d).2) := by
      rw [← hv0]
    obtain ⟨ih1, ih2⟩ := ih (some v0) (recordPop i e.1 e.2 M d).2
    have hfold : foldPops i (e :: rest) (M, d)
        = foldPops i rest (some v0, (recordPop i e.1 e.2 M d).2) := by
      rw [foldPops]; simp only; rw [← hrec]
    rw [hfold]
    obtain ⟨v1, hv1, hle⟩ := ih1 v0 rfl
    refine ⟨?_, ?_⟩
    · intro v hv
      exact ⟨v1, hv1, le_trans (hb v hv) hle⟩
    · intro e1 he1
      rcases List.mem_cons.mp he1 with h1 | h1
      · subst h1
        exact ⟨v1, hv1, le_trans ha hle⟩
      · exact ih2 e1 h1

theorem recordPop_real (H : List Int) (i th tp : Int) (M : Option Int) (d : coords)
    (hM : MaxReal H M d) (hi : i ≤ H.length) (h0 : 0 ≤ th) (h1 : 0 ≤ tp) (h2 : tp ≤ i)
    (hfit : ∀ j : Int, tp ≤ j → j < i → th ≤ bar H j) :
    MaxReal H (recordPop i th tp M d).1 (recordPop i th tp M d).2 := by
  have hnew : FitsUnder H ⟨i - tp, th⟩ :=
    ⟨by simp only; omega, h0, tp, h1, by simp only; omega, fun j hj1 hj2 =>
      hfit j hj1 (by simp only at hj2; omega)⟩
  intro v hv
  cases M with
  | none =>
    simp only [recordPop, Option.some.injEq] at hv
    simp only [recordPop, if_true]
    exact ⟨by rw [← hv]; ring, hnew⟩
  | some m =>
    simp only [recordPop, Option.some.injEq] at hv
    simp only [recordPop]
    by_cases hc : max (th * (i - tp)) m = th * (i - tp)
    · rw [if_pos hc]
      exact ⟨by rw [← hv, hc]; ring, hnew⟩
    · rw [if_neg hc]
      have hm : max (th * (i - tp)) m = m := by
        rcases max_choice (th * (i - tp)) m with h | h
        · exact absurd h hc
        · exact h
      rw [hm] at hv
      exact hM v (by rw [hv])

theorem foldPops_real (H : List Int) (i : Int) (popped : List (Int × Int)) (M : Option Int)
    (d : coords) (hM : MaxReal H M d) (hi : i ≤ H.length)
    (hp : ∀ e ∈ popped, 0 ≤ e.1 ∧ 0 ≤ e.2 ∧ e.2 ≤ i ∧
      ∀ j : Int, e.2 ≤ j → j < i → e.1 ≤ bar H j) :
    MaxReal H (foldPops i popped (M, d)).1 (foldPops i popped (M, d)).2 := by
  induction popped generalizing M d with
  | nil => simpa [foldPops] using hM
  | cons e rest ih =>
    rw [foldPops]
    obtain ⟨e0, e1, e2, e3⟩ := hp e (by simp)
    exact ih _ _ (recordPop_real H i e.1 e.2 M d hM hi e0 e1 e2 e3)
      (fun e' he' => hp e' (List.mem_cons_of_mem _ he'))

theorem fitsUnder_append (pre : List Int) (h : Int) (d : coords) (hd : FitsUnder pre d) :
    FitsUnder (pre ++ [h]) d := by
  obtain ⟨h1, h2, l, h3, h4, h5⟩ := hd
  refine ⟨h1, h2, l, h3, ?_, ?_⟩
  · simp only [List.length_append, List.length_singleton]; push_cast; omega
  · intro j hj1 hj2
    rw [bar_append_left pre h j (by omega) (by omega)]
    exact h5 j hj1 hj2

theorem maxReal_append (pre : List Int) (h : Int) (M : Option Int) (d : coords)
    (hM : MaxReal pre M d) : MaxReal (pre ++ [h]) M d :=
  fun v hv => ⟨(hM v hv).1, fitsUnder_append pre h d (hM v hv).2⟩

theorem area_le_area (m a l p n : Int) (h0 : 0 ≤ m) (h1 : m ≤ a) (h2 : p ≤ l) (h3 : l ≤ n) :
    m * (n - l) ≤ a * (n - p) :=
  mul_le_mul h1 (by omega) (by omega) (by omega)

/-- One iteration of the scan keeps the invariant, whatever entries it pops, as long as the
new stack is built as the code builds it. -/
theorem scanInv_step (pre : List Int) (h : Int) (st : RectState)
    (popped newStack : List (Int × Int)) (tp : Int) (inv : ScanInv pre st)
    (hps : newStack.Pairwise fun a b => b.2 < a.2)
    (hhs : newStack.Pairwise fun a b => b.1 ≤ a.1)
    (hrange : ∀ e ∈ newStack, 0 ≤ e.1 ∧ 0 ≤ e.2 ∧ e.2 ≤ pre.length)
    (hfits : ∀ e ∈ newStack, e.1 ≤ h ∧ ∀ j : Int, e.2 ≤ j → j < pre.length → e.1 ≤ bar pre j)
    (hkeep : ∀ e ∈ st.stack, e ∈ newStack ∨ e ∈ popped)
    (hpopped : ∀ e ∈ popped, e ∈ st.stack)
    (hcov : ∃ e ∈ newStack, h ≤ e.1 ∧ ∀ p ∈ popped, e.2 ≤ p.2) :
    ScanInv (pre ++ [h])
      ⟨newStack, tp, (foldPops pre.length popped (st.maxSize, st.dimensions)).1,
        (foldPops pre.length popped (st.maxSize, st.dimensions)).2⟩ := by
  have hlen : (((pre ++ [h]).length : Nat) : Int) = (pre.length : Int) + 1 := by
    simp only [List.length_append, List.length_singleton]; push_cast; rfl
  have hbound := foldPops_bound pre.length popped st.maxSize st.dimensions
  have hcover : ∀ l m : Int, 0 ≤ l → l < (pre.length : Int) + 1 →
      (∀ j : Int, l ≤ j → j < (pre.length : Int) + 1 → m ≤ bar (pre ++ [h]) j) →
      ∃ e ∈ newStack, e.2 ≤ l ∧ m ≤ e.1 := by
    intro l m hl0 hl1 hm
    have hmh : m ≤ h := by
      have := hm pre.length (by omega) (by omega)
      rwa [bar_append_last] at this
    obtain ⟨e0, he0, he1, he2⟩ := hcov
    by_cases hli : l = pre.length
    · exact ⟨e0, he0, by have := (hrange e0 he0).2.2; omega, le_trans hmh he1⟩
    · have hm1 : ∀ j : Int, l ≤ j → j < pre.length → m ≤ bar pre j := by
        intro j hj1 hj2
        have := hm j hj1 (by omega)
        rwa [bar_append_left pre h j (by omega) hj2] at this
      obtain ⟨e, he, hel, hem⟩ := inv.cover l m hl0 (by omega) hm1
      rcases hkeep e he with hk | hk
      · exact ⟨e, hk, hel, hem⟩
      · exact ⟨e0, he0, le_trans (he2 e hk) hel, le_trans hmh he1⟩
  refine ⟨hps, hhs, ?_, ?_, ?_, ?_, ?_⟩
  · intro e he
    obtain ⟨a, b, c⟩ := hrange e he
    exact ⟨a, b, by rw [hlen]; omega⟩
  · intro e he j hj1 hj2
    rw [hlen] at hj2
    obtain ⟨a, b⟩ := hfits e he
    by_cases hji : j = pre.length
    · rw [hji, bar_append_last]; exact a
    · rw [bar_append_left pre h j (by have := (hrange e he).2.1; omega) (by omega)]
      exact b j hj1 (by omega)
  · intro l m hl0 hl1 hm
    rw [hlen] at hl1
    exact hcover l m hl0 hl1 (fun j hj1 hj2 => hm j hj1 (by rw [hlen]; exact hj2))
  · intro l r m hl0 hlr hr hm0 hm
    rw [hlen] at hr
    simp only [hlen]
    by_cases hri : r = (pre.length : Int) + 1
    · obtain ⟨e, he, hel, hem⟩ := hcover l m hl0 (by omega) (fun j hj1 hj2 => hm j hj1 (by omega))
      right
      refine ⟨e, he, ?_⟩
      rw [hri]
      exact area_le_area m e.1 l e.2 _ hm0 hem hel (by omega)
    · have hm1 : ∀ j : Int, l ≤ j → j < r → m ≤ bar pre j := by
        intro j hj1 hj2
        have := hm j hj1 hj2
        rwa [bar_append_left pre h j (by omega) (by omega)] at this
      rcases inv.done l r m hl0 hlr (by omega) hm0 hm1 with ⟨M0, hM0, hle⟩ | ⟨e, he, hle⟩
      · obtain ⟨v1, hv1, hv⟩ := hbound.1 M0 hM0
        exact Or.inl ⟨v1, hv1, le_trans hle hv⟩
      · rcases hkeep e he with hk | hk
        · right
          refine ⟨e, hk, le_trans hle ?_⟩
          have h0 := (inv.range e he).1
          exact mul_le_mul_of_nonneg_left (by omega) h0
        · obtain ⟨v1, hv1, hv⟩ := hbound.2 e hk
          exact Or.inl ⟨v1, hv1, le_trans hle hv⟩
  · apply maxReal_append
    apply foldPops_real pre pre.length popped _ _ inv.real (le_refl _)
    intro e he
    have hs := hpopped e he
    obtain ⟨a, b, c⟩ := inv.range e hs
    exact ⟨a, b, by omega, inv.fits e hs⟩

theorem dropWhile_le (h : Int) (S : List (Int × Int))
    (hs : S.Pairwise fun a b => b.1 ≤ a.1) :
    ∀ e ∈ S.dropWhile (fun e => decide (h < e.1)), e.1 ≤ h := by
  induction S with
  | nil => intro e he; simp at he
  | cons a rest ih =>
    intro e he
    rw [List.pairwise_cons] at hs
    by_cases hlt : h < a.1
    · rw [List.dropWhile_cons_of_pos (by simpa using hlt)] at he
      exact ih hs.2 e he
    · rw [List.dropWhile_cons_of_neg (by simpa using hlt)] at he
      rcases List.mem_cons.mp he with h1 | h1
      · rw [h1]; omega
      · have := hs.1 e h1; omega

theorem lastPos_mem (popped : List (Int × Int)) (tp : Int) (hne : popped ≠ [])
    (hs : popped.Pairwise fun a b => b.2 < a.2) :
    ∃ e ∈ popped, lastPos popped tp = e.2 ∧ ∀ p ∈ popped, e.2 ≤ p.2 := by
  induction popped generalizing tp with
  | nil => exact absurd rfl hne
  | cons a rest ih =>
    rw [List.pairwise_cons] at hs
    by_cases hr : rest = []
    · subst hr
      exact ⟨a, by simp, rfl, by simp⟩
    · obtain ⟨e, he, heq, hmin⟩ := ih a.2 hr hs.2
      refine ⟨e, List.mem_cons_of_mem _ he, by rw [lastPos]; exact heq, ?_⟩
      intro p hp
      rcases List.mem_cons.mp hp with h1 | h1
      · rw [h1]; exact le_of_lt (hs.1 e he)
      · exact hmin p h1

/-- The loop invariant is kept by one iteration of the `for` loop of `findLargestRect`. -/
theorem scanStep_inv (pre : List Int) (h : Int) (st : RectState) (hh : 0 ≤ h)
    (inv : ScanInv pre st) : ScanInv (pre ++ [h]) (scanStep pre.length h st) := by
  obtain ⟨S, tp0, M, d⟩ := st
  unfold scanStep
  cases hS : S with
  | nil =>
    subst hS
    simp only []
    exact scanInv_step pre h ⟨[], tp0, M, d⟩ [] [(h, pre.length)] tp0 inv
      (by simp) (by simp)
      (by intro e he; simp only [List.mem_singleton] at he; subst he; simp [hh])
      (by intro e he; simp only [List.mem_singleton] at he; subst he
          exact ⟨le_refl _, fun j hj1 hj2 => by simp only at hj1; omega⟩)
      (by intro e he; simp at he) (by intro e he; simp at he)
      ⟨(h, pre.length), by simp, le_refl _, by intro p hp; simp at hp⟩
  | cons top rest =>
    subst hS
    obtain ⟨th, tpos⟩ := top
    simp only []
    have hle_top : ∀ e ∈ (th, tpos) :: rest, e.1 ≤ th := by
      intro e he
      rcases List.mem_cons.mp he with h1 | h1
      · rw [h1]
      · exact (List.pairwise_cons.mp inv.h_sorted).1 e h1
    by_cases hgt : h > th
    · rw [if_pos hgt]
      exact scanInv_step pre h ⟨(th, tpos) :: rest, tp0, M, d⟩ [] ((h, pre.length) :: (th, tpos) :: rest)
        tp0 inv
        (List.pairwise_cons.mpr ⟨fun e he => (inv.range e he).2.2, inv.pos_sorted⟩)
        (List.pairwise_cons.mpr ⟨fun e he => by have := hle_top e he; simp only; omega,
          inv.h_sorted⟩)
        (by
          intro e he
          rcases List.mem_cons.mp he with h1 | h1
          · subst h1; simp [hh]
          · obtain ⟨a, b, c⟩ := inv.range e h1; exact ⟨a, b, by omega⟩)
        (by
          intro e he
          rcases List.mem_cons.mp he with h1 | h1
          · subst h1; exact ⟨le_refl _, fun j hj1 hj2 => by simp only at hj1; omega⟩
          · exact ⟨by have := hle_top e h1; omega, inv.fits e h1⟩)
        (fun e he => Or.inl (List.mem_cons_of_mem _ he)) (by intro e he; simp at he)
        ⟨(h, pre.length), by simp, le_refl _, by intro p hp; simp at hp⟩
    · rw [if_neg hgt]
      by_cases hlt : h < th
      · rw [if_pos hlt, popLoop_eq]
        simp only []
        have hsplit := List.takeWhile_append_dropWhile (fun e : Int × Int => decide (h < e.1))
          ((th, tpos) :: rest)
        have hne : ((th, tpos) :: rest).takeWhile (fun e : Int × Int => decide (h < e.1)) ≠ [] := by
          rw [List.takeWhile_cons_of_pos (by simpa using hlt)]; simp
        have hps0 := inv.pos_sorted
        have hhs0 := inv.h_sorted
        simp only [] at hps0 hhs0
        rw [← hsplit] at hps0 hhs0
        rw [List.pairwise_append] at hps0 hhs0
        obtain ⟨e0, he0, hlast, hmin⟩ := lastPos_mem _ tp0 hne hps0.1
        have hmemT : ∀ e ∈ ((th, tpos) :: rest).takeWhile (fun e : Int × Int => decide (h < e.1)),
            e ∈ (th, tpos) :: rest := fun e he => (List.takeWhile_sublist _).subset he
        have hmemD : ∀ e ∈ ((th, tpos) :: rest).dropWhile (fun e : Int × Int => decide (h < e.1)),
            e ∈ (th, tpos) :: rest := fun e he => (List.dropWhile_sublist _).subset he
        have hdle := dropWhile_le h _ inv.h_sorted
        simp only [] at hdle
        have he0lt : h < e0.1 := by simpa using List.mem_takeWhile_imp he0
        rw [hlast]
        exact scanInv_step pre h ⟨(th, tpos) :: rest, tp0, M, d⟩ _ _ _ inv
          (List.pairwise_cons.mpr ⟨fun e he => hps0.2.2 e0 he0 e he, hps0.2.1⟩)
          (List.pairwise_cons.mpr ⟨fun e he => hdle e he, hhs0.2.1⟩)
          (by
            intro e he
            rcases List.mem_cons.mp he with h1 | h1
            · subst h1
              obtain ⟨a, b, c⟩ := inv.range e0 (hmemT e0 he0)
              exact ⟨hh, b, by simp only; omega⟩
            · obtain ⟨a, b, c⟩ := inv.range e (hmemD e h1); exact ⟨a, b, by omega⟩)
          (by
            intro e he
            rcases List.mem_cons.mp he with h1 | h1
            · subst h1
              refine ⟨le_refl _, fun j hj1 hj2 => ?_⟩
              have := inv.fits e0 (hmemT e0 he0) j hj1 hj2
              simp only; omega
            · exact ⟨hdle e h1, inv.fits e (hmemD e h1)⟩)
          (by
            intro e he
            simp only [] at he
            rw [← hsplit] at he
            rcases List.mem_append.mp he with h1 | h1
            · exact Or.inr h1
            · exact Or.inl (List.mem_cons_of_mem _ h1))
          hmemT
          ⟨(h, e0.2), by simp, le_refl _, hmin⟩
      · rw [if_neg hlt]
        have heq : h = th := by omega
        have := scanInv_step pre h ⟨(th, tpos) :: rest, tp0, M, d⟩ [] ((th, tpos) :: rest) tp0 inv
          inv.pos_sorted inv.h_sorted
          (by intro e he; obtain ⟨a, b, c⟩ := inv.range e he; exact ⟨a, b, by omega⟩)
          (by intro e he; exact ⟨by have := hle_top e he; omega, inv.fits e he⟩)
          (fun e he => Or.inl he) (by intro e he; simp at he)
          ⟨(th, tpos), by simp, by simp only; omega, by intro p hp; simp at hp⟩
        simpa [foldPops] using this

theorem scanLoop_inv (rest pre : List Int) (st : RectState) (hnn : ∀ h ∈ rest, 0 ≤ h)
    (inv : ScanInv pre st) : ScanInv (pre ++ rest) (scanLoop pre.length rest st) := by
  induction rest generalizing pre st with
  | nil => simpa [scanLoop] using inv
  | cons h rest ih =>
    have h1 := scanStep_inv pre h st (hnn h (by simp)) inv
    have h2 := ih (pre ++ [h]) (scanStep pre.length h st)
      (fun a ha => hnn a (List.mem_cons_of_mem _ ha)) h1
    have e1 : pre ++ [h] ++ rest = pre ++ h :: rest := by simp
    have e2 : (((pre ++ [h]).length : Nat) : Int) = (pre.length : Int) + 1 := by
      simp only [List.length_append, List.length_singleton]; push_cast; rfl
    rw [e1, e2] at h2
    rw [scanLoop]
    exact h2

theorem scanInv_init (uninit : coords) : ScanInv [] ⟨[], 0, none, uninit⟩ := by
  refine ⟨by simp, by simp, by simp, by simp, ?_, ?_, ?_⟩
  · intro l m h0 h1; simp at h1; omega
  · intro l r m h0 h1 h2; simp at h2; omega
  · intro v hv; simp at hv

/-- Specification of `findLargestRect` on a non-empty histogram without negative bars: the
returned dimensions fit under the histogram, and no rectangle under the histogram has a
larger area. -/
theorem findLargestRect_spec (uninit : coords) (H : List Int) (hne : H ≠ [])
    (hnn : ∀ h ∈ H, 0 ≤ h) :
    FitsUnder H (findLargestRect uninit H) ∧
      ∀ l r m : Int, 0 ≤ l → l < r → r ≤ H.length → 0 ≤ m →
        (∀ j : Int, l ≤ j → j < r → m ≤ bar H j) →
        m * (r - l) ≤ (findLargestRect uninit H).x * (findLargestRect uninit H).z := by
  have inv := scanLoop_inv H [] ⟨[], 0, none, uninit⟩ hnn (scanInv_init uninit)
  simp only [List.nil_append, List.length_nil, Nat.cast_zero] at inv
  unfold findLargestRect
  simp only []
  rw [flushLoop_eq]
  simp only []
  generalize scanLoop 0 H ⟨[], 0, none, uninit⟩ = st at inv
  have hbound := foldPops_bound H.length st.stack st.maxSize st.dimensions
  have hreal : MaxReal H (foldPops H.length st.stack (st.maxSize, st.dimensions)).1
      (foldPops H.length st.stack (st.maxSize, st.dimensions)).2 := by
    apply foldPops_real H H.length st.stack _ _ inv.real (le_refl _)
    intro e he
    obtain ⟨a, b, c⟩ := inv.range e he
    exact ⟨a, b, by omega, inv.fits e he⟩
  have hlen : (0 : Int) < H.length := by
    have : 0 < H.length := List.length_pos.mpr hne
    omega
  obtain ⟨e0, he0, _, _⟩ := inv.cover 0 0 (le_refl _) hlen
    (fun j hj1 hj2 => by
      unfold bar
      have hj : j.toNat < H.length := by omega
      rw [List.getD_eq_getElem _ _ hj]
      exact hnn _ (List.getElem_mem _))
  obtain ⟨v0, hv0, _⟩ := hbound.2 e0 he0
  obtain ⟨hv, hfit⟩ := hreal v0 hv0
  refine ⟨hfit, ?_⟩
  intro l r m hl0 hlr hr hm0 hm
  rcases inv.done l r m hl0 hlr hr hm0 hm with ⟨M0, hM0, hle⟩ | ⟨e, he, hle⟩
  · obtain ⟨v1, hv1, hv1le⟩ := hbound.1 M0 hM0
    rw [hv0] at hv1
    simp only [Option.some.injEq] at hv1
    rw [← hv, hv1]
    exact le_trans hle hv1le
  · obtain ⟨v1, hv1, hv1le⟩ := hbound.2 e he
    rw [hv0] at hv1
    simp only [Option.some.injEq] at hv1
    rw [← hv, hv1]
    exact le_trans hle hv1le

/-! ### Largest rectangle in a bitmap -/

theorem bar_natCast (H : List Int) (c : Nat) : bar H (c : Int) = H.getD c 0 := by
  simp [bar]

theorem bar_updateHistogram (ncols : Nat) (H : List Int) (row : List Bool) (c : Nat)
    (hc : c < ncols) :
    bar (updateHistogram ncols H row) c = if row.getD c false then bar H c + 1 else 0 := by
  rw [bar_natCast, bar_natCast]
  unfold updateHistogram
  rw [List.getD_eq_getElem _ _ (by simpa using hc)]
  simp

theorem cellAt_append_left (pre : List (List Bool)) (row : List Bool) (i j : Nat)
    (hi : i < pre.length) : cellAt (pre ++ [row]) i j = cellAt pre i j := by
  unfold cellAt
  rw [List.getD_append _ _ _ _ hi]

theorem cellAt_append_last (pre : List (List Bool)) (row : List Bool) (j : Nat) :
    cellAt (pre ++ [row]) pre.length j = row.getD j false := by
  unfold cellAt
  simp [List.getD_append_right]

theorem rectIn_append (pre : List (List Bool)) (row : List Bool) (ncols r0 c0 h w : Nat)
    (hr : RectIn pre ncols r0 c0 h w) : RectIn (pre ++ [row]) ncols r0 c0 h w := by
  obtain ⟨h1, h2, h3⟩ := hr
  refine ⟨by simp only [List.length_append, List.length_singleton]; omega, h2, ?_⟩
  intro i j a b c d
  rw [cellAt_append_left pre row i j (by omega)]
  exact h3 i j a b c d

theorem rowInv_init (ncols : Nat) : RowInv ncols [] (List.replicate ncols 0, ⟨0, 0⟩) := by
  refine ⟨by simp, ?_, by simp, by simp, ?_⟩
  · intro c t hc
    rw [bar_natCast, List.getD_eq_getElem _ _ (by simpa using hc)]
    simp
  · rintro r0 c0 h w ⟨h1, _, _⟩
    simp only [List.length_nil] at h1
    have : h = 0 := by omega
    subst this
    simp

theorem pos_of_mul_pos_nonneg (a b : Int) (ha : 0 ≤ a) (hb : 0 ≤ b) (h : 0 < a * b) :
    0 < a ∧ 0 < b := by
  constructor
  · rcases lt_or_eq_of_le ha with h1 | h1
    · exact h1
    · rw [← h1] at h; simp at h
  · rcases lt_or_eq_of_le hb with h1 | h1
    · exact h1
    · rw [← h1] at h; simp at h

/-- One row of `createSubMatrixHistogram` keeps the invariant. -/
theorem histogramRow_inv (uninit : coords) (ncols : Nat) (pre : List (List Bool))
    (acc : List Int × coords) (row : List Bool) (hn : 0 < ncols)
    (inv : RowInv ncols pre acc) :
    RowInv ncols (pre ++ [row]) (histogramRow uninit ncols acc row) := by
  have hk : (pre ++ [row]).length = pre.length + 1 := by simp
  have hlenH : (updateHistogram ncols acc.1 row).length = ncols := by simp [updateHistogram]
  have hbar0 : ∀ c : Nat, c < ncols → 0 ≤ bar acc.1 c := by
    intro c hc
    have := (inv.run c 0 hc).mpr ⟨Nat.zero_le _, fun i h1 h2 => by omega⟩
    simpa using this
  have hnnH : ∀ v ∈ updateHistogram ncols acc.1 row, 0 ≤ v := by
    intro v hv
    simp only [updateHistogram, List.mem_map, List.mem_range] at hv
    obtain ⟨c, hc, rfl⟩ := hv
    have := hbar0 c hc
    rw [bar_natCast] at this
    split <;> omega
  have hneH : updateHistogram ncols acc.1 row ≠ [] := by
    intro h0; rw [h0] at hlenH; simp at hlenH; omega
  have hrun : ∀ c t : Nat, c < ncols →
      ((t : Int) ≤ bar (updateHistogram ncols acc.1 row) c ↔
        t ≤ pre.length + 1 ∧
          ∀ i, i < pre.length + 1 → pre.length + 1 ≤ i + t →
            cellAt (pre ++ [row]) i c = true) := by
    intro c t hc
    rw [bar_updateHistogram ncols acc.1 row c hc]
    cases hcell : row.getD c false with
    | false =>
      simp only [Bool.false_eq_true, if_false]
      constructor
      · intro ht
        have : t = 0 := by omega
        subst this
        exact ⟨Nat.zero_le _, fun i h1 h2 => by omega⟩
      · rintro ⟨_, h2⟩
        by_contra hpos
        have := h2 pre.length (by omega) (by omega)
        rw [cellAt_append_last, hcell] at this
        exact absurd this (by simp)
    | true =>
      simp only [if_true]
      cases t with
      | zero =>
        constructor
        · intro _; exact ⟨Nat.zero_le _, fun i h1 h2 => by omega⟩
        · intro _; have := hbar0 c hc; push_cast; omega
      | succ s =>
        have hs := inv.run c s hc
        constructor
        · intro ht
          have hs1 : (s : Int) ≤ bar acc.1 c := by push_cast at ht; omega
          obtain ⟨a, b⟩ := hs.mp hs1
          refine ⟨by omega, fun i h1 h2 => ?_⟩
          by_cases hi : i = pre.length
          · rw [hi, cellAt_append_last, hcell]
          · rw [cellAt_append_left pre row i c (by omega)]
            exact b i (by omega) (by omega)
        · rintro ⟨a, b⟩
          have : (s : Int) ≤ bar acc.1 c := by
            apply hs.mpr
            refine ⟨by omega, fun i h1 h2 => ?_⟩
            have := b i (by omega) (by omega)
            rwa [cellAt_append_left pre row i c h1] at this
          push_cast; omega
  obtain ⟨hfit, hmax⟩ := findLargestRect_spec uninit _ hneH hnnH
  have temp_real : 0 < (findLargestRect uninit (updateHistogram ncols acc.1 row)).x *
        (findLargestRect uninit (updateHistogram ncols acc.1 row)).z →
      ∃ r0 c0, RectIn (pre ++ [row]) ncols r0 c0
        (findLargestRect uninit (updateHistogram ncols acc.1 row)).z.toNat
        (findLargestRect uninit (updateHistogram ncols acc.1 row)).x.toNat := by
    intro hpos
    obtain ⟨hx, hz, l, hl0, hl1, hbars⟩ := hfit
    obtain ⟨hxp, hzp⟩ := pos_of_mul_pos_nonneg _ _ hx hz hpos
    generalize findLargestRect uninit (updateHistogram ncols acc.1 row) = temp at *
    rw [hlenH] at hl1
    have hcol : ∀ j : Nat, l.toNat ≤ j → j < l.toNat + temp.x.toNat →
        temp.z.toNat ≤ pre.length + 1 ∧
          ∀ i, i < pre.length + 1 → pre.length + 1 ≤ i + temp.z.toNat →
            cellAt (pre ++ [row]) i j = true := by
      intro j hj1 hj2
      apply (hrun j temp.z.toNat (by omega)).mp
      have := hbars (j : Int) (by omega) (by omega)
      rw [Int.toNat_of_nonneg hz]
      exact this
    have hzk := (hcol l.toNat (le_refl _) (by omega)).1
    refine ⟨pre.length + 1 - temp.z.toNat, l.toNat, by rw [hk]; omega, by omega, ?_⟩
    intro i j a b c d
    exact (hcol j c d).2 i (by omega) (by omega)
  have temp_max : ∀ r0 c0 h w, RectIn (pre ++ [row]) ncols r0 c0 h w →
      r0 + h = pre.length + 1 → 0 < h → 0 < w →
      ((h * w : Nat) : Int) ≤ (findLargestRect uninit (updateHistogram ncols acc.1 row)).x *
        (findLargestRect uninit (updateHistogram ncols acc.1 row)).z := by
    intro r0 c0 h w hr hbot hh hw
    obtain ⟨h1, h2, h3⟩ := hr
    have := hmax (c0 : Int) ((c0 : Int) + w) (h : Int) (by omega) (by omega)
      (by rw [hlenH]; omega) (by omega)
      (by
        intro j hj1 hj2
        have hj : j = ((j.toNat : Nat) : Int) := by omega
        rw [hj]
        apply (hrun j.toNat h (by omega)).mpr
        refine ⟨by omega, fun i hi1 hi2 => ?_⟩
        exact h3 i j.toNat (by omega) (by omega) (by omega) (by omega))
    push_cast
    have e : (h : Int) * ((c0 : Int) + w - c0) = (h : Int) * w := by ring
    rw [e] at this
    exact this
  unfold histogramRow
  simp only []
  by_cases hgt : (findLargestRect uninit (updateHistogram ncols acc.1 row)).x *
      (findLargestRect uninit (updateHistogram ncols acc.1 row)).z > acc.2.x * acc.2.z
  · rw [if_pos hgt]
    refine ⟨hlenH, ?_, ⟨hfit.1, hfit.2.1⟩, temp_real, ?_⟩
    · intro c t hc; rw [hk]; exact hrun c t hc
    · intro r0 c0 h w hr
      by_cases hbot : r0 + h = pre.length + 1 ∧ 0 < h ∧ 0 < w
      · exact temp_max r0 c0 h w hr hbot.1 hbot.2.1 hbot.2.2
      · by_cases hz : h = 0 ∨ w = 0
        · have h0 : h * w = 0 := by rcases hz with h0 | h0 <;> simp [h0]
          rw [h0]
          have := mul_nonneg inv.best_nonneg.1 inv.best_nonneg.2
          push_cast; omega
        · have hin : RectIn pre ncols r0 c0 h w := by
            obtain ⟨h1, h2, h3⟩ := hr
            rw [hk] at h1
            have hlt : r0 + h ≤ pre.length := by omega
            refine ⟨hlt, h2, fun i j a b c d => ?_⟩
            have := h3 i j a b c d
            rwa [cellAt_append_left pre row i j (by omega)] at this
          exact le_trans (inv.best_max r0 c0 h w hin) (le_of_lt hgt)
  · rw [if_neg hgt]
    refine ⟨hlenH, ?_, inv.best_nonneg, ?_, ?_⟩
    · intro c t hc; rw [hk]; exact hrun c t hc
    · intro hpos
      obtain ⟨r0, c0, hr⟩ := inv.best_real hpos
      exact ⟨r0, c0, rectIn_append pre row ncols r0 c0 _ _ hr⟩
    · intro r0 c0 h w hr
      by_cases hbot : r0 + h = pre.length + 1 ∧ 0 < h ∧ 0 < w
      · exact le_trans (temp_max r0 c0 h w hr hbot.1 hbot.2.1 hbot.2.2) (not_lt.mp hgt)
      · by_cases hz : h = 0 ∨ w = 0
        · have h0 : h * w = 0 := by rcases hz with h0 | h0 <;> simp [h0]
          rw [h0]
          have := mul_nonneg inv.best_nonneg.1 inv.best_nonneg.2
          push_cast; omega
        · have hin : RectIn pre ncols r0 c0 h w := by
            obtain ⟨h1, h2, h3⟩ := hr
            rw [hk] at h1
            have hlt : r0 + h ≤ pre.length := by omega
            refine ⟨hlt, h2, fun i j a b c d => ?_⟩
            have := h3 i j a b c d
            rwa [cellAt_append_left pre row i j (by omega)] at this
          exact inv.best_max r0 c0 h w hin

theorem foldl_histogramRow_inv (uninit : coords) (ncols : Nat) (hn : 0 < ncols)
    (rest pre : List (List Bool)) (acc : List Int × coords) (inv : RowInv ncols pre acc) :
    RowInv ncols (pre ++ rest) (rest.foldl (histogramRow uninit ncols) acc) := by
  induction rest generalizing pre acc with
  | nil => simpa using inv
  | cons row rest ih =>
    have h1 := histogramRow_inv uninit ncols pre acc row hn inv
    have h2 := ih (pre ++ [row]) _ h1
    simpa using h2

/-- The result of `createSubMatrixHistogram` on a bitmap whose first row is not empty
satisfies the invariant for the whole bitmap. -/
theorem createSubMatrixHistogram_inv (uninit : coords) (bm : List (List Bool))
    (hn : 0 < (bm.headD []).length) :
    ∃ H, RowInv (bm.headD []).length bm (H, createSubMatrixHistogram uninit bm) := by
  have h := foldl_histogramRow_inv uninit (bm.headD []).length hn bm []
    (List.replicate (bm.headD []).length 0, ⟨0, 0⟩) (rowInv_init _)
  rw [List.nil_append] at h
  exact ⟨_, h⟩

theorem maxOver_ge (n : Nat) (f : Nat → Nat) (k : Nat) (hk : k < n) : f k ≤ maxOver n f := by
  induction n with
  | zero => omega
  | succ n ih =>
    rw [maxOver]
    by_cases h : k = n
    · subst h; exact le_max_right _ _
    · exact le_trans (ih (by omega)) (le_max_left _ _)

theorem maxOver_attained (n : Nat) (f : Nat → Nat) : ∃ k < n + 1, maxOver (n + 1) f = f k := by
  induction n with
  | zero => exact ⟨0, by omega, by simp [maxOver]⟩
  | succ n ih =>
    obtain ⟨k, hk, hmax⟩ := ih
    rw [maxOver]
    rcases max_choice (maxOver (n + 1) f) (f (n + 1)) with h | h
    · exact ⟨k, by omega, by rw [h, hmax]⟩
    · exact ⟨n + 1, by omega, h⟩

theorem allTrueRect_iff (bm : List (List Bool)) (r0 c0 h w : Nat) :
    allTrueRect bm r0 c0 h w = true ↔ RectIn bm (bm.headD []).length r0 c0 h w := by
  simp only [allTrueRect, RectIn, Bool.and_eq_true, decide_eq_true_eq, List.all_eq_true,
    List.mem_range, and_assoc]
  constructor
  · rintro ⟨h1, h2, h3⟩
    refine ⟨h1, h2, fun i j a b c d => ?_⟩
    have := h3 (i - r0) (by omega) (j - c0) (by omega)
    rwa [show r0 + (i - r0) = i by omega, show c0 + (j - c0) = j by omega] at this
  · rintro ⟨h1, h2, h3⟩
    exact ⟨h1, h2, fun i hi j hj => h3 (r0 + i) (c0 + j) (by omega) (by omega) (by omega)
      (by omega)⟩

theorem bruteForceMaxArea_ge (bm : List (List Bool)) (r0 c0 h w : Nat)
    (hr : RectIn bm (bm.headD []).length r0 c0 h w) : h * w ≤ bruteForceMaxArea bm := by
  have ht := (allTrueRect_iff bm r0 c0 h w).mpr hr
  obtain ⟨h1, h2, _⟩ := hr
  unfold bruteForceMaxArea
  refine le_trans ?_ (maxOver_ge _ _ r0 (by omega))
  refine le_trans ?_ (maxOver_ge _ _ c0 (by omega))
  refine le_trans ?_ (maxOver_ge _ _ h (by omega))
  refine le_trans ?_ (maxOver_ge _ _ w (by omega))
  simp [ht]

theorem bruteForceMaxArea_attained (bm : List (List Bool)) :
    ∃ r0 c0 h w, RectIn bm (bm.headD []).length r0 c0 h w ∧ bruteForceMaxArea bm = h * w := by
  unfold bruteForceMaxArea
  obtain ⟨r0, _, e1⟩ := maxOver_attained bm.length fun r0 =>
    maxOver ((bm.headD []).length + 1) fun c0 =>
      maxOver (bm.length + 1) fun h =>
        maxOver ((bm.headD []).length + 1) fun w =>
          if allTrueRect bm r0 c0 h w then h * w else 0
  obtain ⟨c0, _, e2⟩ := maxOver_attained (bm.headD []).length fun c0 =>
      maxOver (bm.length + 1) fun h =>
        maxOver ((bm.headD []).length + 1) fun w =>
          if allTrueRect bm r0 c0 h w then h * w else 0
  obtain ⟨h, _, e3⟩ := maxOver_attained bm.length fun h =>
        maxOver ((bm.headD []).length + 1) fun w =>
          if allTrueRect bm r0 c0 h w then h * w else 0
  obtain ⟨w, _, e4⟩ := maxOver_attained (bm.headD []).length fun w =>
          if allTrueRect bm r0 c0 h w then h * w else 0
  rw [e1, e2, e3, e4]
  by_cases ht : allTrueRect bm r0 c0 h w = true
  · exact ⟨r0, c0, h, w, (allTrueRect_iff bm r0 c0 h w).mp ht, by simp [ht]⟩
  · refine ⟨0, 0, 0, 0, ⟨by omega, by omega, fun i j a b => by omega⟩, by simp [ht]⟩

theorem cellAt_replicate (w h i j : Nat) (hi : i < h) (hj : j < w) :
    cellAt (List.replicate h (List.replicate w true)) i j = true := by
  have e1 : (List.replicate h (List.replicate w true)).getD i [] = List.replicate w true := by
    rw [List.getD_eq_getElem (List.replicate h (List.replicate w true)) [] (by simpa using hi)]
    simp
  have e2 : (List.replicate w true).getD j false = true := by
    rw [List.getD_eq_getElem (List.replicate w true) false (by simpa using hj)]
    simp
  unfold cellAt
  rw [e1, e2]

theorem headD_replicate (w h : Nat) (hh : 1 ≤ h) :
    ((List.replicate h (List.replicate w true)).headD []).length = w := by
  cases h with
  | zero => omega
  | succ n => simp [List.replicate_succ]

theorem dims_eq_of_area (x z w h : Int) (hz0 : 0 ≤ z) (hxw : x ≤ w) (hzh : z ≤ h)
    (hw : 1 ≤ w) (hh : 1 ≤ h) (harea : w * h ≤ x * z) : x = w ∧ z = h := by
  constructor
  · by_contra hne
    have hx1 : x ≤ w - 1 := by omega
    have h1 : x * z ≤ (w - 1) * h :=
      mul_le_mul hx1 hzh hz0 (by omega)
    nlinarith
  · by_contra hne
    have hz1 : z ≤ h - 1 := by omega
    have h1 : x * z ≤ w * (h - 1) :=
      mul_le_mul hxw hz1 hz0 (by omega)
    nlinarith

/-! ### What the registry compares -/

theorem lex_cons_inv (p q : Int) (l1 l2 : List Int)
    (h : List.Lex (fun p q : Int => p < q) (p :: l1) (q :: l2)) : p < q ∨ p = q := by
  cases h with
  | cons h => exact Or.inr rfl
  | rel h => exact Or.inl h

theorem lexicographical_compare_iff (a b : List coords) :
    lexicographical_compare a b = true ↔
      List.Lex (fun p q : Int => p < q) (xProfile a) (xProfile b) := by
  induction a generalizing b with
  | nil =>
    cases b with
    | nil => simp [lexicographical_compare, xProfile]
    | cons y bs => simp [lexicographical_compare, xProfile, List.Lex.nil]
  | cons x as ih =>
    cases b with
    | nil => simp [lexicographical_compare, xProfile]
    | cons y bs =>
      simp only [lexicographical_compare, coords.operatorLt, xProfile, List.map_cons,
        decide_eq_true_eq]
      by_cases h1 : x.x < y.x
      · simp only [h1, if_true, true_iff]
        exact List.Lex.rel h1
      · rw [if_neg h1]
        by_cases h2 : y.x < x.x
        · rw [if_pos h2]
          simp only [Bool.false_eq_true, false_iff]
          intro hl
          rcases lex_cons_inv _ _ _ _ hl with h | h <;> omega
        · rw [if_neg h2]
          have heq : x.x = y.x := by omega
          rw [heq, List.Lex.cons_iff]
          exact ih bs

theorem lex_irrefl (k : List Int) : ¬ List.Lex (fun p q : Int => p < q) k k :=
  fun h => (inferInstance : IsIrrefl (List Int) (List.Lex fun p q : Int => p < q)).irrefl k h

theorem lex_trans {a b c : List Int} (h1 : List.Lex (fun p q : Int => p < q) a b)
    (h2 : List.Lex (fun p q : Int => p < q) b c) : List.Lex (fun p q : Int => p < q) a c :=
  (inferInstance : IsTrans (List Int) (List.Lex fun p q : Int => p < q)).trans a b c h1 h2

theorem lex_trichotomy (a b : List Int) (h1 : ¬ List.Lex (fun p q : Int => p < q) a b)
    (h2 : ¬ List.Lex (fun p q : Int => p < q) b a) : a = b := by
  rcases (inferInstance : IsTrichotomous (List Int)
    (List.Lex fun p q : Int => p < q)).trichotomous a b with h | h | h
  · exact absurd h h1
  · exact h
  · exact absurd h h2

/-- What `std::set::insert` does on a registry in increasing order: it reports `true`
exactly when no registered cluster has the same sequence of `x` fields as the new one; the
registry stays in increasing order and gains the new sequence. -/
theorem set_insert_spec (s : List (List coords)) (v : List coords) (hs : RegistrySorted s) :
    ((set_insert s v).2 = true ↔ xProfile v ∉ s.map xProfile) ∧
      RegistrySorted (set_insert s v).1 ∧
      ∀ k, k ∈ (set_insert s v).1.map xProfile ↔ k ∈ s.map xProfile ∨ k = xProfile v := by
  induction s with
  | nil =>
    refine ⟨by simp [set_insert], by simp [set_insert, RegistrySorted], ?_⟩
    intro k; simp [set_insert]
  | cons e s ih =>
    unfold RegistrySorted at hs
    rw [List.map_cons, List.pairwise_cons] at hs
    obtain ⟨he, hs1⟩ := hs
    obtain ⟨ih1, ih2, ih3⟩ := ih hs1
    rw [set_insert]
    cases h1 : lexicographical_compare v e with
    | true =>
      have hl := (lexicographical_compare_iff v e).mp h1
      simp only [if_true]
      have hall : ∀ k ∈ (e :: s).map xProfile,
          List.Lex (fun p q : Int => p < q) (xProfile v) k := by
        intro k hk
        rw [List.map_cons] at hk
        rcases List.mem_cons.mp hk with h | h
        · rw [h]; exact hl
        · exact lex_trans hl (he k h)
      refine ⟨?_, ?_, ?_⟩
      · simp only [true_iff]
        intro hmem
        exact lex_irrefl _ (hall _ hmem)
      · unfold RegistrySorted
        rw [List.map_cons, List.pairwise_cons]
        refine ⟨hall, ?_⟩
        rw [List.map_cons, List.pairwise_cons]
        exact ⟨he, hs1⟩
      · intro k
        simp only [List.map_cons, List.mem_cons]
        tauto
    | false =>
      simp only [Bool.false_eq_true, if_false]
      have hnl : ¬ List.Lex (fun p q : Int => p < q) (xProfile v) (xProfile e) := by
        rw [← lexicographical_compare_iff, h1]; simp
      cases h2 : lexicographical_compare e v with
      | true =>
        have hl := (lexicographical_compare_iff e v).mp h2
        simp only [if_true]
        have hne : xProfile v ≠ xProfile e := by
          intro heq
          rw [heq] at hl
          exact lex_irrefl _ hl
        refine ⟨?_, ?_, ?_⟩
        · rw [ih1]
          simp only [List.map_cons, List.mem_cons, not_or]
          exact ⟨fun h => ⟨hne, h⟩, fun h => h.2⟩
        · unfold RegistrySorted
          rw [List.map_cons, List.pairwise_cons]
          refine ⟨?_, ih2⟩
          intro k hk
          rcases (ih3 k).mp hk with h | h
          · exact he k h
          · rw [h]; exact hl
        · intro k
          simp only [List.map_cons, List.mem_cons]
          rw [ih3 k]
          tauto
      | false =>
        simp only [Bool.false_eq_true, if_false]
        have hnl2 : ¬ List.Lex (fun p q : Int => p < q) (xProfile e) (xProfile v) := by
          rw [← lexicographical_compare_iff, h2]; simp
        have heq : xProfile v = xProfile e := lex_trichotomy _ _ hnl hnl2
        refine ⟨?_, ?_, ?_⟩
        · simp [heq]
        · unfold RegistrySorted
          rw [List.map_cons, List.pairwise_cons]
          exact ⟨he, hs1⟩
        · intro k
          simp only [List.map_cons, List.mem_cons]
          rw [heq]
          tauto

theorem stable_sort_perm (c : List coords) : (stable_sort c).Perm c :=
  List.perm_insertionSort _ c

theorem stable_sort_profile_sorted (c : List coords) :
    (xProfile (stable_sort c)).Pairwise fun p q : Int => p ≤ q := by
  haveI : IsTotal coords (fun a b => b.operatorLt a = false) :=
    ⟨fun a b => by simp only [coords.operatorLt, decide_eq_false_iff_not]; omega⟩
  haveI : IsTrans coords (fun a b => b.operatorLt a = false) :=
    ⟨fun a b c h1 h2 => by
      simp only [coords.operatorLt, decide_eq_false_iff_not] at h1 h2 ⊢; omega⟩
  have h := List.sorted_insertionSort (fun a b : coords => b.operatorLt a = false) c
  unfold xProfile stable_sort
  rw [List.pairwise_map]
  refine List.Pairwise.imp ?_ h
  intro a b hab
  simp only [coords.operatorLt, decide_eq_false_iff_not] at hab
  omega

/-- Two clusters with the same cells (in any order of discovery) have, once sorted, the same
sequence of `x` fields. -/
theorem stable_sort_profile_perm (c1 c2 : List coords) (h : c1.Perm c2) :
    xProfile (stable_sort c1) = xProfile (stable_sort c2) := by
  have hp : (xProfile (stable_sort c1)).Perm (xProfile (stable_sort c2)) := by
    unfold xProfile
    exact ((stable_sort_perm c1).trans (h.trans (stable_sort_perm c2).symm)).map _
  exact List.eq_of_perm_of_sorted hp (stable_sort_profile_sorted c1)
    (stable_sort_profile_sorted c2)

/-- Once a cluster is registered, every later insertion of a cluster with the same cells
reports `false`, whatever was inserted in between and whatever the order in which the
flood-fill listed the cells. -/
theorem set_insert_same_cells (s : List (List coords)) (c1 c2 : List coords)
    (hs : RegistrySorted s) (hreg : xProfile (stable_sort c1) ∈ s.map xProfile)
    (h : c2.Perm c1) : (set_insert s (stable_sort c2)).2 = false := by
  have h1 := (set_insert_spec s (stable_sort c2) hs).1
  rw [stable_sort_profile_perm c2 c1 h] at h1
  cases hb : (set_insert s (stable_sort c2)).2 with
  | false => rfl
  | true => exact absurd hreg (h1.mp hb)

/-! ### The argument of `isSlimeChunk` -/

theorem mixed48_congr (a b : Int) (h : a % 2 ^ 48 = b % 2 ^ 48) : mixed48 a = mixed48 b := by
  unfold mixed48
  rw [h]

theorem isSlimeChunk_congr (cv s cv1 s1 : Int)
    (h : (cv + s) % 2 ^ 48 = (cv1 + s1) % 2 ^ 48) :
    isSlimeChunk cv s = isSlimeChunk cv1 s1 := by
  rw [isSlimeChunk_eq, isSlimeChunk_eq, mixed48_congr _ _ h]

/-- C20: `isSlimeChunk` depends on its arguments only through the low 48 bits of their sum.
Equal sums modulo 2^48 give equal results; `isSlimeChunk(cv, s)` is `isSlimeChunk(0, cv + s)`,
the sum taken exactly or wrapped to 64 bits; adding a multiple of 2^48 to the seed, exactly or
wrapped to 64 bits, changes nothing. -/
theorem isSlimeChunk_low48 (cv s cv1 s1 : Int)
    (h : (cv + s) % 2 ^ 48 = (cv1 + s1) % 2 ^ 48) :
    isSlimeChunk cv s = isSlimeChunk cv1 s1 ∧
      isSlimeChunk cv s = isSlimeChunk 0 (cv + s) ∧
      isSlimeChunk cv s = isSlimeChunk 0 (wrap64 (cv + s)) ∧
      (∀ k : Int, isSlimeChunk cv (s + k * 2 ^ 48) = isSlimeChunk cv s) ∧
      (∀ k : Int, isSlimeChunk cv (wrap64 (s + k * 2 ^ 48)) = isSlimeChunk cv s) := by
  refine ⟨isSlimeChunk_congr cv s cv1 s1 h, ?_, ?_, ?_, ?_⟩
  · exact isSlimeChunk_congr _ _ _ _ (by rw [zero_add])
  · exact isSlimeChunk_congr _ _ _ _ (by rw [zero_add, wrap64_emod48])
  · intro k
    apply isSlimeChunk_congr
    rw [← add_assoc, Int.add_mul_emod_self]
  · intro k
    apply isSlimeChunk_congr
    rw [Int.add_emod, wrap64_emod48, ← Int.add_emod, ← add_assoc, Int.add_mul_emod_self]

/-- C20, witness: the coordinate values 5 and 5 + 2^48 with the seed 7. -/
theorem isSlimeChunk_low48_witness :
    ((5 : Int) + 7) % 2 ^ 48 = (5 + 2 ^ 48 + 7) % 2 ^ 48 ∧
      isSlimeChunk 5 7 = isSlimeChunk (5 + 2 ^ 48) 7 :=
  ⟨by decide, (isSlimeChunk_low48 5 7 (5 + 2 ^ 48) 7 (by decide)).1⟩

/-! ### Order of coordinates, signature of a cluster, size of a report -/

/-- C13, evaluation at the failing input `a = (0, 0)`, `b = (0, 1)`: the code gives neither
`a < b` nor `b < a`, and gives `a == b`. Both operators look at `x` only. -/
theorem coords_operators_compare_x_only :
    coords.operatorLt ⟨0, 0⟩ ⟨0, 1⟩ = false ∧ coords.operatorLt ⟨0, 1⟩ ⟨0, 0⟩ = false ∧
      coords.operatorEq ⟨0, 0⟩ ⟨0, 1⟩ = true ∧
      (∀ a b : coords, (a.operatorLt b = true ↔ a.x < b.x) ∧
        (a.operatorEq b = true ↔ a.x = b.x)) := by
  refine ⟨by decide, by decide, by decide, fun a b => ?_⟩
  simp [coords.operatorLt, coords.operatorEq]

/-- The part of the ordering that the code does provide: of `a < b`, `a == b`, `b < a`
exactly one holds. -/
theorem coords_operators_trichotomy (a b : coords) :
    (a.operatorLt b = true ∧ a.operatorEq b = false ∧ b.operatorLt a = false) ∨
      (a.operatorLt b = false ∧ a.operatorEq b = true ∧ b.operatorLt a = false) ∨
      (a.operatorLt b = false ∧ a.operatorEq b = false ∧ b.operatorLt a = true) := by
  simp only [coords.operatorLt, coords.operatorEq, decide_eq_true_eq, decide_eq_false_iff_not]
  omega

/-- C12, evaluation at the failing input: seed 35, `min_size = 1`, the cluster
`{(2, -5), (2, -4)}`. Flood-filling from `(2, -5)` and sorting leaves the list
`[(2, -5), (2, -4)]`; flood-filling from `(2, -4)` and sorting leaves `[(2, -4), (2, -5)]`. -/
theorem getCluster_sorted_list_depends_on_origin :
    (getCluster (mkWorld 35 12 1 1 true false true) 3 2 (-5) (getCoordinateValue 2 (-5)) 1
        ⟨[], [], [], []⟩).map (fun st => st.checked_chunks)
        = some [⟨2, -5⟩, ⟨2, -4⟩] ∧
      (getCluster (mkWorld 35 12 1 1 true false true) 3 2 (-4) (getCoordinateValue 2 (-4)) 1
        ⟨[], [], [], []⟩).map (fun st => st.checked_chunks)
        = some [⟨2, -4⟩, ⟨2, -5⟩] ∧
      stable_sort [⟨2, -5⟩, ⟨2, -4⟩] = [⟨2, -5⟩, ⟨2, -4⟩] ∧
      stable_sort [⟨2, -4⟩, ⟨2, -5⟩] = [⟨2, -4⟩, ⟨2, -5⟩] := by
  simp only [getCluster_eq_eval]
  decide

/-- C17, evaluation at the failing input: seed 2, `min_size = 3`, logging on, rectangles-only
off, the cluster `{(-4, 4), (-3, 4), (-2, 4), (-3, 5)}` found from `(-4, 4)`. The console
shows the size 4, the number of cells; the record posted to the sink has `size = 3`, the area
of the best rectangle. -/
theorem getCluster_posts_area_when_rectangles_off :
    (mkWorld 2 12 3 1 true false true).returnOnlyRectangles = false ∧
      getCluster (mkWorld 2 12 3 1 true false true) 4 (-4) 4 (getCoordinateValue (-4) 4) 1
        ⟨[], [], [], []⟩
        = some ⟨[⟨-4, 4⟩, ⟨-3, 4⟩, ⟨-3, 5⟩, ⟨-2, 4⟩],
            [[⟨-4, 4⟩, ⟨-3, 4⟩, ⟨-3, 5⟩, ⟨-2, 4⟩]],
            [⟨2, -4, 4, 4, [⟨-4, 4⟩, ⟨-3, 4⟩, ⟨-3, 5⟩, ⟨-2, 4⟩]⟩],
            [⟨2, [⟨-4, 4⟩, ⟨-3, 4⟩, ⟨-3, 5⟩, ⟨-2, 4⟩], ⟨-64, 64⟩, 3⟩]⟩ := by
  simp only [getCluster_eq_eval]
  decide

/-- The `size` of every record that `getCluster` posts is the area of the best rectangle,
in both modes. -/
theorem registerAndReport_posted_size (w : World) (x z : Int) (st : State) (r : PostRecord)
    (hr : r ∈ (registerAndReport w x z st).posted) (hnew : r ∉ st.posted) :
    r.size = (largestRectOf (stable_sort st.checked_chunks)).x *
      (largestRectOf (stable_sort st.checked_chunks)).z := by
  rw [registerAndReport_posted] at hr
  split at hr
  · rcases List.mem_append.mp hr with h | h
    · exact absurd h hnew
    · rw [List.mem_singleton.mp h]
  · exact absurd hr hnew

/-! ### The scan -/

theorem search_eq_eval (w : World) (fuel : Nat) (st : State) :
    search w fuel st = searchEval w fuel st := by
  unfold search searchEval
  simp only [getCluster_eq_eval]

/-- A cell whose coordinates are in `checked_chunks` does not pass the guard, whatever the
depth of the call: the call returns at once and leaves the state as it is. -/
theorem getCluster_in_visited (w : World) (fuel : Nat) (x z cv depth : Int) (st : State)
    (h : (⟨x, z⟩ : coords) ∈ st.checked_chunks) :
    getCluster w (fuel + 1) x z cv depth st = some st := by
  apply getCluster_skip
  have := (any_coords_iff st.checked_chunks ⟨x, z⟩).mpr h
  simp only [] at this
  simp [clusterGuard, this]

/-- C16, evaluation at the failing input: seed 32, radius 4, step 1, `min_size = 1`, logging
on, scanned twice in a row. The first scan, from an empty `checked_chunks`, registers and
posts the cluster `{(-2, -1), (-1, -1)}` and leaves it in `checked_chunks`; the second scan,
which starts from that list, registers and posts nothing. -/
theorem search_depends_on_checked_chunks :
    search (mkWorldCached (cacheFor (scanValues 2 1) (scanValues 2 1)) 32 4 1 1
        true false true) 4 ⟨[], [], [], []⟩
        = some ⟨[⟨-2, -1⟩, ⟨-1, -1⟩], [[⟨-2, -1⟩, ⟨-1, -1⟩]],
            [⟨32, -2, -1, 2, [⟨-2, -1⟩, ⟨-1, -1⟩]⟩],
            [⟨32, [⟨-2, -1⟩, ⟨-1, -1⟩], ⟨-32, -16⟩, 2⟩]⟩ ∧
      search (mkWorldCached (cacheFor (scanValues 2 1) (scanValues 2 1)) 32 4 1 1
        true false true) 4 ⟨[⟨-2, -1⟩, ⟨-1, -1⟩], [], [], []⟩
        = some ⟨[⟨-2, -1⟩, ⟨-1, -1⟩], [], [], []⟩ := by
  simp only [search_eq_eval]
  decide

/-! ### Number of guarded calls of a flood-fill -/

/-- The list left by the neighbour calls of an initial call at a marked cell: each cell of
the region of that cell, once. -/
theorem neighbourCalls_region (w : World) (fuel : Nat) (x z : Int) (st s4 : State)
    (hm : marked w.seed ⟨x, z⟩ = true)
    (h : neighbourCalls w fuel x z (enterCell x z 1 st) = some s4) :
    s4.checked_chunks.Nodup ∧ ∀ c, c ∈ s4.checked_chunks ↔ InRegion w.seed ⟨x, z⟩ c := by
  rw [neighbourCalls_enter] at h
  cases hf : fillNeighbours w.seed fuel ⟨x, z⟩ [⟨x, z⟩] with
  | none => rw [hf] at h; simp at h
  | some V4 =>
    rw [hf] at h
    simp only [Option.map_some', Option.some.injEq] at h
    subst h
    exact fillNeighbours_region w.seed fuel ⟨x, z⟩ V4 hm hf

/-! ### The bitmap of a cluster -/

theorem recordPop_tracked (uninit : coords) (cs : List coords) (M : Option Int) (d : coords)
    (i th tp : Int) (h : Tracked uninit cs M d) :
    Tracked uninit (cs ++ [candidate i th tp]) (recordPop i th tp M d).1
      (recordPop i th tp M d).2 := by
  have ha : area (candidate i th tp) = th * (i - tp) := by
    simp only [area, candidate]; ring
  rcases h with ⟨rfl, rfl, rfl⟩ | ⟨rfl, pre, post, rfl, h1, h2⟩
  · refine Or.inr ⟨?_, [], [], by simp [recordPop, candidate], by simp, by simp⟩
    simp [recordPop, ha, candidate, area, mul_comm]
  · unfold recordPop
    simp only []
    by_cases hge : area d ≤ th * (i - tp)
    · simp only [max_eq_left hge, if_true]
      refine Or.inr ⟨by rw [← ha]; rfl, pre ++ d :: post, [], by simp [candidate], ?_, by simp⟩
      intro c hc
      change area c ≤ area (candidate i th tp)
      rw [ha]
      rcases List.mem_append.mp hc with hc | hc
      · exact le_trans (h1 c hc) hge
      · rcases List.mem_cons.mp hc with rfl | hc
        · exact hge
        · exact le_trans (le_of_lt (h2 c hc)) hge
    · have hlt : th * (i - tp) < area d := not_le.mp hge
      simp only [max_eq_right (le_of_lt hlt), if_neg (ne_of_gt hlt)]
      refine Or.inr ⟨rfl, pre, post ++ [candidate i th tp], by simp, h1, ?_⟩
      intro c hc
      rcases List.mem_append.mp hc with hc | hc
      · exact h2 c hc
      · rw [List.mem_singleton.mp hc, ha]
        exact hlt

theorem popLoop_tracked (uninit : coords) (h i : Int) (S : List (Int × Int)) (tp : Int)
    (cs : List coords) (M : Option Int) (d : coords) (ht : Tracked uninit cs M d) :
    Tracked uninit (cs ++ popLoopCandidates h i S) (popLoop h i S tp M d).maxSize
      (popLoop h i S tp M d).dimensions := by
  induction S generalizing tp cs M d with
  | nil => simpa [popLoop, popLoopCandidates] using ht
  | cons e rest ih =>
    obtain ⟨th, p⟩ := e
    by_cases hlt : h < th
    · simp only [popLoop, popLoopCandidates, if_pos hlt]
      have := ih p _ _ _ (recordPop_tracked uninit cs M d i th p ht)
      simpa using this
    · simpa [popLoop, popLoopCandidates, hlt] using ht

theorem flushLoop_tracked (uninit : coords) (i : Int) (S : List (Int × Int)) (tp : Int)
    (cs : List coords) (M : Option Int) (d : coords) (ht : Tracked uninit cs M d) :
    Tracked uninit (cs ++ flushLoopCandidates i S) (flushLoop i S tp M d).maxSize
      (flushLoop i S tp M d).dimensions := by
  induction S generalizing tp cs M d with
  | nil => simpa [flushLoop, flushLoopCandidates] using ht
  | cons e rest ih =>
    obtain ⟨th, p⟩ := e
    simp only [flushLoop, flushLoopCandidates]
    have := ih p _ _ _ (recordPop_tracked uninit cs M d i th p ht)
    simpa using this

theorem scanStep_tracked (uninit : coords) (i h : Int) (st : RectState) (cs : List coords)
    (ht : Tracked uninit cs st.maxSize st.dimensions) :
    Tracked uninit (cs ++ scanStepCandidates i h st) (scanStep i h st).maxSize
      (scanStep i h st).dimensions := by
  unfold scanStep scanStepCandidates
  cases hs : st.stack with
  | nil => simpa using ht
  | cons e rest =>
    obtain ⟨top, p⟩ := e
    simp only []
    by_cases h1 : h > top
    · simpa [h1] using ht
    · by_cases h2 : h < top
      · simp only [if_neg h1, if_pos h2]
        exact popLoop_tracked uninit h i _ st.tempPos cs _ _ ht
      · simpa [h1, h2] using ht

theorem scanLoop_tracked (uninit : coords) (i : Int) (H : List Int) (st : RectState)
    (cs : List coords) (ht : Tracked uninit cs st.maxSize st.dimensions) :
    Tracked uninit (cs ++ scanLoopCandidates i H st) (scanLoop i H st).maxSize
      (scanLoop i H st).dimensions := by
  induction H generalizing i st cs with
  | nil => simpa [scanLoop, scanLoopCandidates] using ht
  | cons h rest ih =>
    simp only [scanLoop, scanLoopCandidates]
    have := ih (i + 1) _ _ (scanStep_tracked uninit i h st cs ht)
    simpa using this

/-- The dimensions that `findLargestRect` returns, in terms of its candidates. -/
theorem findLargestRect_tracked (uninit : coords) (H : List Int) :
    ∃ M, Tracked uninit (findLargestRectCandidates uninit H) M (findLargestRect uninit H) := by
  have h1 := scanLoop_tracked uninit 0 H ⟨[], 0, none, uninit⟩ [] (Or.inl ⟨rfl, rfl, rfl⟩)
  have h2 := flushLoop_tracked uninit H.length (scanLoop 0 H ⟨[], 0, none, uninit⟩).stack
    (scanLoop 0 H ⟨[], 0, none, uninit⟩).tempPos _ _ _ h1
  exact ⟨_, by simpa [findLargestRectCandidates, findLargestRect] using h2⟩

theorem lastLargest_of_split (pre post : List coords) (d : coords)
    (h1 : ∀ c ∈ pre, area c ≤ area d) (h2 : ∀ c ∈ post, area c < area d) :
    lastLargest (pre ++ d :: post) = some d := by
  unfold lastLargest
  rw [List.find?_eq_some]
  refine ⟨?_, post.reverse, pre.reverse, by simp, ?_⟩
  · rw [List.all_eq_true]
    intro c hc
    rw [decide_eq_true_eq]
    rcases List.mem_append.mp hc with hc | hc
    · exact h1 c hc
    · rcases List.mem_cons.mp hc with rfl | hc
      · exact le_refl _
      · exact le_of_lt (h2 c hc)
  · intro c hc
    rw [Bool.not_eq_true', ← Bool.not_eq_true, List.all_eq_true]
    intro hall
    have := hall d (by simp)
    rw [decide_eq_true_eq] at this
    exact absurd (h2 c (List.mem_reverse.mp hc)) (not_lt.mpr this)

theorem firstLargest_of_split (pre post : List coords) (d : coords)
    (h1 : ∀ c ∈ pre, area c < area d) (h2 : ∀ c ∈ post, area c ≤ area d) :
    firstLargest (pre ++ d :: post) = some d := by
  unfold firstLargest
  rw [List.find?_eq_some]
  refine ⟨?_, pre, post, rfl, ?_⟩
  · rw [List.all_eq_true]
    intro c hc
    rw [decide_eq_true_eq]
    rcases List.mem_append.mp hc with hc | hc
    · exact le_of_lt (h1 c hc)
    · rcases List.mem_cons.mp hc with rfl | hc
      · exact le_refl _
      · exact h2 c hc
  · intro c hc
    rw [Bool.not_eq_true', ← Bool.not_eq_true, List.all_eq_true]
    intro hall
    have := hall d (by simp)
    rw [decide_eq_true_eq] at this
    exact absurd (h1 c hc) (not_lt.mpr this)

/-- Within one histogram the last of the largest candidates is returned (the indeterminate
initial value if there is no candidate). -/
theorem findLargestRect_lastLargest (uninit : coords) (H : List Int) :
    (lastLargest (findLargestRectCandidates uninit H)).getD uninit
      = findLargestRect uninit H := by
  obtain ⟨M, ht⟩ := findLargestRect_tracked uninit H
  rcases ht with ⟨e, _, hd⟩ | ⟨_, pre, post, e, h1, h2⟩
  · rw [e, hd]; rfl
  · rw [e, lastLargest_of_split pre post _ h1 h2]; rfl

/-- The loop over the rows keeps the first of the largest row results, the initial
`maxDimensions` counted as the first of them. -/
theorem foldl_keep_first (temps : List coords) (pre : List coords) (best : coords)
    (h1 : ∃ p q, pre = p ++ best :: q ∧ (∀ c ∈ p, area c < area best) ∧
      ∀ c ∈ q, area c ≤ area best) :
    firstLargest (pre ++ temps)
      = some (temps.foldl (fun b t => if t.x * t.z > b.x * b.z then t else b) best) := by
  induction temps generalizing pre best with
  | nil =>
    obtain ⟨p, q, rfl, a, b⟩ := h1
    simpa using firstLargest_of_split p q best a b
  | cons t rest ih =>
    obtain ⟨p, q, rfl, a, b⟩ := h1
    rw [List.foldl_cons]
    have e : (p ++ best :: q) ++ t :: rest = ((p ++ best :: q) ++ [t]) ++ rest := by simp
    rw [e]
    apply ih
    by_cases hgt : t.x * t.z > best.x * best.z
    · rw [if_pos hgt]
      refine ⟨p ++ best :: q, [], by simp, ?_, by simp⟩
      intro c hc
      have hgt1 : area best < area t := hgt
      rcases List.mem_append.mp hc with hc | hc
      · exact lt_trans (a c hc) hgt1
      · rcases List.mem_cons.mp hc with rfl | hc
        · exact hgt1
        · exact lt_of_le_of_lt (b c hc) hgt1
    · rw [if_neg hgt]
      refine ⟨p, q ++ [t], by simp, a, ?_⟩
      intro c hc
      rcases List.mem_append.mp hc with hc | hc
      · exact b c hc
      · rw [List.mem_singleton.mp hc]
        exact not_lt.mp hgt

theorem foldl_histogramRow_eq (uninit : coords) (ncols : Nat) (rows : List (List Bool))
    (acc : List Int × coords) :
    (rows.foldl (histogramRow uninit ncols) acc).2
      = ((rowHistograms ncols acc.1 rows).map (findLargestRect uninit)).foldl
          (fun b t => if t.x * t.z > b.x * b.z then t else b) acc.2 := by
  induction rows generalizing acc with
  | nil => rfl
  | cons row rest ih =>
    rw [List.foldl_cons, ih]
    rfl

/-- C11, counterexample: on the bitmap with the rows `10` and `11` the candidates are, in
evaluation order, `(1, 1)`, `(2, 0)` in the first row and `(1, 2)`, `(2, 1)` in the second
one. The largest area is 2 and its first candidate is `(1, 2)`, but
`createSubMatrixHistogram` returns `(2, 1)`, the later candidate of the same row and the
same area, whatever the initial value of the local `dimensions`. -/
theorem createSubMatrixHistogram_returns_later_tie :
    firstLargest [⟨1, 1⟩, ⟨2, 0⟩, ⟨1, 2⟩, ⟨2, 1⟩] = some ⟨1, 2⟩ ∧
      (∀ uninit : coords,
        createSubMatrixHistogramCandidates uninit [[true, false], [true, true]]
          = [[⟨1, 1⟩, ⟨2, 0⟩], [⟨1, 2⟩, ⟨2, 1⟩]]) ∧
      ∀ uninit : coords,
        createSubMatrixHistogram uninit [[true, false], [true, true]] = ⟨2, 1⟩ :=
  ⟨by decide, fun _ => rfl, fun _ => rfl⟩

/-! ### Range of the `int` arithmetic of the rectangle scorer

The products `tempH * (i - tempPos)` of `findLargestRect` and the areas compared by the row
loop of `createSubMatrixHistogram` are `int` products in the code. The lemmas of this part
bound them: for a bitmap of fewer than 2^31 cells every such product is the area of a
candidate and lies in `[0, 2^31)`, so that the `int` products of the code are the exact
products of the embedding. -/

theorem popLoopCandidates_mem (h i : Int) (S : List (Int × Int)) (c : coords)
    (hc : c ∈ popLoopCandidates h i S) : ∃ e ∈ S, c = candidate i e.1 e.2 := by
  induction S with
  | nil => simp [popLoopCandidates] at hc
  | cons e rest ih =>
    obtain ⟨th, p⟩ := e
    by_cases hlt : h < th
    · simp only [popLoopCandidates, if_pos hlt, List.mem_cons] at hc
      rcases hc with rfl | hc
      · exact ⟨(th, p), by simp, rfl⟩
      · obtain ⟨e, he, rfl⟩ := ih hc
        exact ⟨e, List.mem_cons_of_mem _ he, rfl⟩
    · simp [popLoopCandidates, hlt] at hc

theorem flushLoopCandidates_mem (i : Int) (S : List (Int × Int)) (c : coords)
    (hc : c ∈ flushLoopCandidates i S) : ∃ e ∈ S, c = candidate i e.1 e.2 := by
  induction S with
  | nil => simp [flushLoopCandidates] at hc
  | cons e rest ih =>
    obtain ⟨th, p⟩ := e
    simp only [flushLoopCandidates, List.mem_cons] at hc
    rcases hc with rfl | hc
    · exact ⟨(th, p), by simp, rfl⟩
    · obtain ⟨e, he, rfl⟩ := ih hc
      exact ⟨e, List.mem_cons_of_mem _ he, rfl⟩

theorem scanStepCandidates_mem (i h : Int) (st : RectState) (c : coords)
    (hc : c ∈ scanStepCandidates i h st) : ∃ e ∈ st.stack, c = candidate i e.1 e.2 := by
  unfold scanStepCandidates at hc
  cases hs : st.stack with
  | nil => rw [hs] at hc; simp at hc
  | cons e rest =>
    obtain ⟨top, p⟩ := e
    rw [hs] at hc
    simp only [] at hc
    by_cases h1 : h > top
    · simp [h1] at hc
    · by_cases h2 : h < top
      · simp only [if_neg h1, if_pos h2] at hc
        exact popLoopCandidates_mem h i _ c hc
      · simp [h1, h2] at hc

/-- Under the invariant of the scan every stack entry has a height between 0 and the largest
bar and a position inside the scanned part. -/
theorem stack_entry_range (B : Int) (pre : List Int) (st : RectState) (inv : ScanInv pre st)
    (hB : ∀ h ∈ pre, h ≤ B) :
    ∀ e ∈ st.stack, 0 ≤ e.1 ∧ e.1 ≤ B ∧ 0 ≤ e.2 ∧ e.2 < pre.length := by
  intro e he
  obtain ⟨a, b, c⟩ := inv.range e he
  have hf := inv.fits e he e.2 (le_refl _) c
  have hlt : e.2.toNat < pre.length := by omega
  have hbar : bar pre e.2 ≤ B := by
    unfold bar
    rw [List.getD_eq_getElem pre 0 hlt]
    exact hB _ (List.getElem_mem _)
  exact ⟨a, le_trans hf hbar, b, c⟩

theorem scanLoopCandidates_range (B : Int) (rest pre : List Int) (st : RectState)
    (hnn : ∀ h ∈ rest, 0 ≤ h) (hpre : ∀ h ∈ pre, h ≤ B) (hrest : ∀ h ∈ rest, h ≤ B)
    (inv : ScanInv pre st) :
    ∀ c ∈ scanLoopCandidates pre.length rest st,
      0 < c.x ∧ c.x ≤ (pre.length : Int) + rest.length ∧ 0 ≤ c.z ∧ c.z ≤ B := by
  induction rest generalizing pre st with
  | nil => simp [scanLoopCandidates]
  | cons h rest ih =>
    intro c hc
    rw [scanLoopCandidates, List.mem_append] at hc
    rcases hc with hc | hc
    · obtain ⟨e, he, rfl⟩ := scanStepCandidates_mem _ _ _ _ hc
      obtain ⟨a1, a2, a3, a4⟩ := stack_entry_range B pre st inv hpre e he
      simp only [candidate, List.length_cons, Nat.cast_add, Nat.cast_one]
      refine ⟨by omega, by omega, a1, a2⟩
    · have h1 := scanStep_inv pre h st (hnn h (by simp)) inv
      have e2 : (((pre ++ [h]).length : Nat) : Int) = (pre.length : Int) + 1 := by
        simp only [List.length_append, List.length_singleton]; push_cast; rfl
      rw [← e2] at hc
      have := ih (pre ++ [h]) (scanStep pre.length h st)
        (fun a ha => hnn a (List.mem_cons_of_mem _ ha))
        (by
          intro a ha
          rcases List.mem_append.mp ha with ha | ha
          · exact hpre a ha
          · rw [List.mem_singleton.mp ha]; exact hrest h (by simp))
        (fun a ha => hrest a (List.mem_cons_of_mem _ ha)) h1 c hc
      rw [e2] at this
      simp only [List.length_cons, Nat.cast_add, Nat.cast_one]
      omega

/-- Every candidate of `findLargestRect` on a histogram with bars between 0 and `B` is at
least one and at most `histogram.size()` bars wide and between 0 and `B` high. -/
theorem findLargestRectCandidates_range (uninit : coords) (H : List Int) (B : Int)
    (hb : ∀ h ∈ H, 0 ≤ h ∧ h ≤ B) :
    ∀ c ∈ findLargestRectCandidates uninit H,
      0 < c.x ∧ c.x ≤ H.length ∧ 0 ≤ c.z ∧ c.z ≤ B := by
  intro c hc
  unfold findLargestRectCandidates at hc
  simp only [List.mem_append] at hc
  rcases hc with hc | hc
  · have := scanLoopCandidates_range B H [] ⟨[], 0, none, uninit⟩ (fun h hh => (hb h hh).1)
      (by simp) (fun h hh => (hb h hh).2) (scanInv_init uninit) c
      (by simpa using hc)
    simpa using this
  · have inv := scanLoop_inv H [] ⟨[], 0, none, uninit⟩ (fun h hh => (hb h hh).1)
      (scanInv_init uninit)
    simp only [List.nil_append, List.length_nil, Nat.cast_zero] at inv
    obtain ⟨e, he, rfl⟩ := flushLoopCandidates_mem _ _ _ hc
    obtain ⟨a1, a2, a3, a4⟩ := stack_entry_range B H _ inv (fun h hh => (hb h hh).2) e he
    simp only [candidate]
    exact ⟨by omega, by omega, a1, a2⟩

/-- On a non-empty histogram without negative bars `findLargestRect` has a candidate, and
returns one of its candidates: the last of the largest ones. -/
theorem findLargestRect_mem_candidates (uninit : coords) (H : List Int) (hne : H ≠ [])
    (hnn : ∀ h ∈ H, 0 ≤ h) :
    findLargestRect uninit H ∈ findLargestRectCandidates uninit H ∧
      lastLargest (findLargestRectCandidates uninit H) = some (findLargestRect uninit H) := by
  have inv := scanLoop_inv H [] ⟨[], 0, none, uninit⟩ hnn (scanInv_init uninit)
  simp only [List.nil_append, List.length_nil, Nat.cast_zero] at inv
  have hlen : 0 < H.length := List.length_pos.mpr hne
  obtain ⟨e, he, _⟩ := inv.cover 0 0 (le_refl _) (by exact_mod_cast hlen) (by
    intro j hj0 hj1
    unfold bar
    have hlt : j.toNat < H.length := by omega
    rw [List.getD_eq_getElem H 0 hlt]
    exact hnn _ (List.getElem_mem _))
  have hcne : findLargestRectCandidates uninit H ≠ [] := by
    unfold findLargestRectCandidates
    simp only []
    cases hs : (scanLoop 0 H ⟨[], 0, none, uninit⟩).stack with
    | nil => rw [hs] at he; simp at he
    | cons e1 rest => simp [flushLoopCandidates]
  obtain ⟨M, ht⟩ := findLargestRect_tracked uninit H
  rcases ht with ⟨e0, _, _⟩ | ⟨_, pre, post, e0, h1, h2⟩
  · exact absurd e0 hcne
  · refine ⟨by rw [e0]; simp, ?_⟩
    rw [e0]
    exact lastLargest_of_split pre post _ h1 h2

theorem updateHistogram_range (ncols : Nat) (H0 : List Int) (row : List Bool) (k : Int)
    (hk : 0 ≤ k) (h0 : ∀ h ∈ H0, 0 ≤ h ∧ h ≤ k) :
    (updateHistogram ncols H0 row).length = ncols ∧
      ∀ h ∈ updateHistogram ncols H0 row, 0 ≤ h ∧ h ≤ k + 1 := by
  refine ⟨by simp [updateHistogram], ?_⟩
  intro h hh
  simp only [updateHistogram, List.mem_map, List.mem_range] at hh
  obtain ⟨z, _, rfl⟩ := hh
  have hg : 0 ≤ H0.getD z 0 ∧ H0.getD z 0 ≤ k := by
    by_cases hz : z < H0.length
    · rw [List.getD_eq_getElem H0 0 hz]
      exact h0 _ (List.getElem_mem _)
    · rw [List.getD_eq_default H0 0 (by omega)]
      exact ⟨le_refl _, hk⟩
  split <;> omega

theorem rowHistograms_range (ncols : Nat) (rows : List (List Bool)) (H0 : List Int) (k : Nat)
    (h0 : ∀ h ∈ H0, 0 ≤ h ∧ h ≤ (k : Int)) :
    ∀ H ∈ rowHistograms ncols H0 rows,
      H.length = ncols ∧ ∀ h ∈ H, 0 ≤ h ∧ h ≤ ((k + rows.length : Nat) : Int) := by
  induction rows generalizing H0 k with
  | nil => simp [rowHistograms]
  | cons row rest ih =>
    intro H hH
    obtain ⟨hl, hr⟩ := updateHistogram_range ncols H0 row k (by omega) h0
    rw [rowHistograms, List.mem_cons] at hH
    rcases hH with rfl | hH
    · refine ⟨hl, fun h hh => ?_⟩
      have := hr h hh
      simp only [List.length_cons]
      push_cast
      omega
    · have := ih (updateHistogram ncols H0 row) (k + 1)
        (fun h hh => by have := hr h hh; push_cast; omega) H hH
      refine ⟨this.1, fun h hh => ?_⟩
      have := this.2 h hh
      simp only [List.length_cons]
      push_cast at this ⊢
      omega

theorem rowHistograms_length (ncols : Nat) (rows : List (List Bool)) (H0 : List Int) :
    (rowHistograms ncols H0 rows).length = rows.length := by
  induction rows generalizing H0 with
  | nil => rfl
  | cons row rest ih => simp [rowHistograms, ih]

/-- For a bitmap of fewer than 2^31 cells with at least one column, and each of the
histograms that `createSubMatrixHistogram` passes to `findLargestRect`: the result of
`findLargestRect` is one of its candidates, the last of the largest ones, and the area of
every candidate lies in `[0, 2^31)`. Every product that the code forms in `int` (the
`tempSize` of a pop, the areas compared by the row loop) is such an area, or the area 0 of
the initial `maxDimensions`. -/
theorem rowHistograms_int_range (uninit : coords) (bm : List (List Bool))
    (hcols : 0 < (bm.headD []).length)
    (hsize : bm.length * (bm.headD []).length < 2 ^ 31) :
    ∀ H ∈ rowHistograms (bm.headD []).length (List.replicate (bm.headD []).length 0) bm,
      findLargestRect uninit H ∈ findLargestRectCandidates uninit H ∧
      lastLargest (findLargestRectCandidates uninit H) = some (findLargestRect uninit H) ∧
      ∀ c ∈ findLargestRectCandidates uninit H, 0 ≤ area c ∧ area c < 2 ^ 31 := by
  intro H hH
  obtain ⟨hl, hr⟩ := rowHistograms_range (bm.headD []).length bm
    (List.replicate (bm.headD []).length 0) 0
    (by intro h hh; rw [List.mem_replicate] at hh; rw [hh.2]; simp) H hH
  have hne : H ≠ [] := by
    intro e
    rw [e, List.length_nil] at hl
    omega
  obtain ⟨m1, m2⟩ := findLargestRect_mem_candidates uninit H hne (fun h hh => (hr h hh).1)
  refine ⟨m1, m2, ?_⟩
  intro c hc
  obtain ⟨c1, c2, c3, c4⟩ := findLargestRectCandidates_range uninit H _ hr c hc
  rw [hl] at c2
  simp only [zero_add] at c4
  have hs : ((bm.length * (bm.headD []).length : Nat) : Int) < 2 ^ 31 := by exact_mod_cast hsize
  push_cast at hs
  unfold area
  constructor
  · exact mul_nonneg (le_of_lt c1) c3
  · have : c.x * c.z ≤ ((bm.headD []).length : Int) * (bm.length : Int) :=
      mul_le_mul c2 c4 c3 (by omega)
    nlinarith

/-! ### The rectangle scorer on bitmaps of fewer than 2^31 cells -/

/-- C1: on every non-empty rectangular bitmap of fewer than 2^31 cells the area of the
dimensions returned by `createSubMatrixHistogram` is the brute-force maximum over all
all-true sub-rectangles, and when this maximum is positive the bitmap contains an all-true
sub-rectangle of `x` columns and `z` rows, `(x, z)` being the returned dimensions. The bound
on the number of cells keeps the `int` products of the code exact: for every histogram passed
to `findLargestRect` the result is one of the candidates, and the area of every candidate
lies in `[0, 2^31)`. -/
theorem createSubMatrixHistogram_max_area (uninit : coords) (bm : List (List Bool))
    (hbm : Rectangular bm) (hsize : bm.length * (bm.headD []).length < 2 ^ 31) :
    (createSubMatrixHistogram uninit bm).x * (createSubMatrixHistogram uninit bm).z
        = bruteForceMaxArea bm ∧
      (0 < bruteForceMaxArea bm →
        ∃ r0 c0 h w : Nat,
          (createSubMatrixHistogram uninit bm).x = w ∧
          (createSubMatrixHistogram uninit bm).z = h ∧
          r0 + h ≤ bm.length ∧ c0 + w ≤ (bm.headD []).length ∧
          ∀ i j, r0 ≤ i → i < r0 + h → c0 ≤ j → j < c0 + w → cellAt bm i j = true) ∧
      (∀ H ∈ rowHistograms (bm.headD []).length (List.replicate (bm.headD []).length 0) bm,
        findLargestRect uninit H ∈ findLargestRectCandidates uninit H ∧
        ∀ c ∈ findLargestRectCandidates uninit H, 0 ≤ area c ∧ area c < 2 ^ 31) := by
  have hrange := rowHistograms_int_range uninit bm hbm.2.2 hsize
  refine ⟨?_, ?_, fun H hH => ⟨(hrange H hH).1, (hrange H hH).2.2⟩⟩
  all_goals
    obtain ⟨H, inv⟩ := createSubMatrixHistogram_inv uninit bm hbm.2.2
    obtain ⟨hx, hz⟩ := inv.best_nonneg
    simp only [] at hx hz
    have hreal := inv.best_real
    have hmax := inv.best_max
    simp only [] at hreal hmax
    generalize createSubMatrixHistogram uninit bm = d at *
    have hle : d.x * d.z ≤ bruteForceMaxArea bm := by
      by_cases hpos : 0 < d.x * d.z
      · obtain ⟨r0, c0, hr⟩ := hreal hpos
        have := bruteForceMaxArea_ge bm r0 c0 _ _ hr
        have e : d.x * d.z = ((d.z.toNat * d.x.toNat : Nat) : Int) := by
          push_cast
          rw [Int.toNat_of_nonneg hx, Int.toNat_of_nonneg hz]; ring
        rw [e]
        exact_mod_cast this
      · have : d.x * d.z ≤ 0 := not_lt.mp hpos
        omega
    have hge : (bruteForceMaxArea bm : Int) ≤ d.x * d.z := by
      obtain ⟨r0, c0, h, w, hr, he⟩ := bruteForceMaxArea_attained bm
      rw [he]
      exact hmax r0 c0 h w hr
  · exact le_antisymm hle hge
  · intro hpos
    have hpos1 : 0 < d.x * d.z := by omega
    obtain ⟨r0, c0, h1, h2, h3⟩ := hreal hpos1
    exact ⟨r0, c0, d.z.toNat, d.x.toNat, (Int.toNat_of_nonneg hx).symm,
      (Int.toNat_of_nonneg hz).symm, h1, h2, h3⟩

/-- C1, witness: the plus-shaped 3 x 3 bitmap, whose largest all-true rectangles have
area 3. -/
theorem createSubMatrixHistogram_max_area_witness :
    (Rectangular [[false, true, false], [true, true, true], [false, true, false]] ∧
      [[false, true, false], [true, true, true], [false, true, false]].length *
        ([[false, true, false], [true, true, true], [false, true, false]].headD []).length
        < 2 ^ 31) ∧
      (createSubMatrixHistogram ⟨0, 0⟩
          [[false, true, false], [true, true, true], [false, true, false]]).x *
        (createSubMatrixHistogram ⟨0, 0⟩
          [[false, true, false], [true, true, true], [false, true, false]]).z
        = bruteForceMaxArea [[false, true, false], [true, true, true], [false, true, false]] ∧
      bruteForceMaxArea [[false, true, false], [true, true, true], [false, true, false]] = 3 :=
  ⟨⟨⟨by decide, by decide, by decide⟩, by decide⟩,
    (createSubMatrixHistogram_max_area ⟨0, 0⟩
      [[false, true, false], [true, true, true], [false, true, false]]
      ⟨by decide, by decide, by decide⟩ (by decide)).1, by decide⟩

/-- C10: on the all-true bitmap of `h` rows and `w` columns (`w, h ≥ 1`, fewer than 2^31
cells) `createSubMatrixHistogram` returns the dimensions `(w, h)`, of area `w * h`; the
bitmap that `generateClusterRegion` builds from the fully marked 3 x 3 cluster is the
all-true 3 x 3 bitmap, for which the result is `(3, 3)`, area 9. The bound `w * h < 2^31`
keeps the `int` products of the code exact: for every histogram passed to `findLargestRect`
the result is one of the candidates, and the area of every candidate lies in `[0, 2^31)`. -/
theorem createSubMatrixHistogram_all_true (uninit : coords) (w h : Nat) (hw : 1 ≤ w)
    (hh : 1 ≤ h) (hsize : w * h < 2 ^ 31) :
    createSubMatrixHistogram uninit (List.replicate h (List.replicate w true)) = ⟨w, h⟩ ∧
      (createSubMatrixHistogram uninit (List.replicate h (List.replicate w true))).x *
        (createSubMatrixHistogram uninit (List.replicate h (List.replicate w true))).z
        = (w : Int) * h ∧
      generateClusterRegion
          [⟨0, 0⟩, ⟨0, 1⟩, ⟨0, 2⟩, ⟨1, 0⟩, ⟨1, 1⟩, ⟨1, 2⟩, ⟨2, 0⟩, ⟨2, 1⟩, ⟨2, 2⟩]
        = List.replicate 3 (List.replicate 3 true) ∧
      createSubMatrixHistogram ⟨0, 0⟩ (generateClusterRegion
          [⟨0, 0⟩, ⟨0, 1⟩, ⟨0, 2⟩, ⟨1, 0⟩, ⟨1, 1⟩, ⟨1, 2⟩, ⟨2, 0⟩, ⟨2, 1⟩, ⟨2, 2⟩]) = ⟨3, 3⟩ ∧
      (∀ H ∈ rowHistograms w (List.replicate w 0) (List.replicate h (List.replicate w true)),
        findLargestRect uninit H ∈ findLargestRectCandidates uninit H ∧
        ∀ c ∈ findLargestRectCandidates uninit H, 0 ≤ area c ∧ area c < 2 ^ 31) := by
  have hcols := headD_replicate w h hh
  have hrange := rowHistograms_int_range uninit (List.replicate h (List.replicate w true))
    (by rw [hcols]; omega)
    (by rw [hcols, List.length_replicate, Nat.mul_comm]; exact hsize)
  rw [hcols] at hrange
  obtain ⟨H, inv⟩ := createSubMatrixHistogram_inv uninit
    (List.replicate h (List.replicate w true)) (by rw [hcols]; omega)
  rw [hcols] at inv
  obtain ⟨hx, hz⟩ := inv.best_nonneg
  have hreal := inv.best_real
  have hmax := inv.best_max 0 0 h w
    ⟨by simp, by omega, fun i j _ hi _ hj => cellAt_replicate w h i j (by omega) (by omega)⟩
  simp only [] at hx hz hreal hmax
  generalize createSubMatrixHistogram uninit (List.replicate h (List.replicate w true)) = d at *
  have hpos : 0 < d.x * d.z := by
    have : 0 < ((h * w : Nat) : Int) := by
      have := Nat.mul_pos hh hw
      omega
    omega
  obtain ⟨r0, c0, h1, h2, _⟩ := hreal hpos
  simp only [List.length_replicate] at h1
  have hd := dims_eq_of_area d.x d.z w h hz (by omega) (by omega) (by omega) (by omega)
    (by push_cast at hmax; rw [mul_comm]; exact hmax)
  refine ⟨?_, by rw [hd.1, hd.2], by decide, by decide,
    fun H hH => ⟨(hrange H hH).1, (hrange H hH).2.2⟩⟩
  cases d
  simp only [coords.mk.injEq]
  exact hd

/-- C10, witness: the all-true bitmap of 2 rows and 3 columns gives `(3, 2)`. -/
theorem createSubMatrixHistogram_all_true_witness :
    ((1 : Nat) ≤ 3 ∧ (1 : Nat) ≤ 2 ∧ 3 * 2 < 2 ^ 31) ∧
      createSubMatrixHistogram ⟨7, 7⟩ (List.replicate 2 (List.replicate 3 true)) = ⟨3, 2⟩ :=
  ⟨by decide,
    (createSubMatrixHistogram_all_true ⟨7, 7⟩ 3 2 (by decide) (by decide) (by decide)).1⟩

/-- C11, amended: for every bitmap with at least one column and fewer than 2^31 cells,
`createSubMatrixHistogram` returns the first of the largest entries of the list made of the
initial `maxDimensions = (0, 0)` followed by the results of the rows from top to bottom:
across rows a later result of equal area never replaces an earlier one. The result of a row
is the last of the largest candidates of that row, in the order of the pops (scan from left
to right, then the final loop): within a row a later candidate of equal area replaces the
earlier one. The area of every candidate lies in `[0, 2^31)`, so that the `int` products
which the code compares are exact. -/
theorem createSubMatrixHistogram_tie_break (uninit : coords) (bm : List (List Bool))
    (hcols : 0 < (bm.headD []).length)
    (hsize : bm.length * (bm.headD []).length < 2 ^ 31) :
    firstLargest ((⟨0, 0⟩ : coords) ::
        (createSubMatrixHistogramCandidates uninit bm).map
          fun cs => (lastLargest cs).getD uninit)
      = some (createSubMatrixHistogram uninit bm) ∧
    (∀ H ∈ rowHistograms (bm.headD []).length (List.replicate (bm.headD []).length 0) bm,
      lastLargest (findLargestRectCandidates uninit H) = some (findLargestRect uninit H) ∧
      ∀ c ∈ findLargestRectCandidates uninit H, 0 ≤ area c ∧ area c < 2 ^ 31) ∧
    (createSubMatrixHistogramCandidates uninit bm).length = bm.length := by
  have hrange := rowHistograms_int_range uninit bm hcols hsize
  refine ⟨?_, fun H hH => (hrange H hH).2, ?_⟩
  · unfold createSubMatrixHistogram createSubMatrixHistogramCandidates
    simp only []
    rw [foldl_histogramRow_eq, List.map_map]
    have e : ((fun cs => (lastLargest cs).getD uninit) ∘ findLargestRectCandidates uninit)
        = findLargestRect uninit := by
      funext H
      exact findLargestRect_lastLargest uninit H
    rw [e]
    exact foldl_keep_first _ [⟨0, 0⟩] ⟨0, 0⟩ ⟨[], [], rfl, by simp, by simp⟩
  · unfold createSubMatrixHistogramCandidates
    simp only [List.length_map]
    exact rowHistograms_length _ _ _

/-- C11, witness: the bitmap with the rows `10` and `11`. The results of the rows are
`(1, 1)`, the last largest of `(1, 1)`, `(2, 0)`, and `(2, 1)`, the last largest of
`(1, 2)`, `(2, 1)`; the first largest of `(0, 0)`, `(1, 1)`, `(2, 1)` is `(2, 1)`. -/
theorem createSubMatrixHistogram_tie_break_witness :
    (0 < (([[true, false], [true, true]] : List (List Bool)).headD []).length ∧
      ([[true, false], [true, true]] : List (List Bool)).length *
        (([[true, false], [true, true]] : List (List Bool)).headD []).length < 2 ^ 31) ∧
      (createSubMatrixHistogramCandidates ⟨0, 0⟩ [[true, false], [true, true]]).map
          (fun cs => (lastLargest cs).getD ⟨0, 0⟩) = [⟨1, 1⟩, ⟨2, 1⟩] ∧
      firstLargest ((⟨0, 0⟩ : coords) ::
          (createSubMatrixHistogramCandidates ⟨0, 0⟩ [[true, false], [true, true]]).map
            fun cs => (lastLargest cs).getD ⟨0, 0⟩)
        = some (createSubMatrixHistogram ⟨0, 0⟩ [[true, false], [true, true]]) :=
  ⟨⟨by decide, by decide⟩, by decide,
    (createSubMatrixHistogram_tie_break ⟨0, 0⟩ [[true, false], [true, true]]
      (by decide) (by decide)).1⟩

/-! ### The flood-fill on regions inside the `int` range -/

/-- A list that holds the origin and, with each of its cells, the marked neighbours of that
cell holds the whole region of the origin. -/
theorem region_subset_of_closed (seed : Int) (o : coords) (L : List coords) (ho : o ∈ L)
    (hcl : ∀ c ∈ L, ∀ n ∈ neighbours c, marked seed n = true → n ∈ L) (c : coords)
    (hc : InRegion seed o c) : c ∈ L := by
  obtain ⟨_, hr⟩ := hc
  induction hr with
  | refl => exact ho
  | tail _ hs ih => exact hcl _ ih _ hs.2.2 hs.2.1

/-- C2: an initial call of `getCluster` (`depth = 1`) at an origin that passes the guard with
its own coordinate value, the marked region of the origin being finite and so far inside the
`int` range that the neighbours of its cells are `int` coordinates: the four neighbour calls
return with enough fuel, and whenever they return, the visited list holds each cell of the
4-connected marked region of the origin exactly once and nothing else (in particular no
unmarked cell), the same set of cells is obtained from every other origin of the region, and
every coordinate `x ± 1`, `z ± 1` that the calls computed is an `int` (nothing wrapped). -/
theorem getCluster_visits_exactly_region (w : World) (x z : Int) (st : State)
    (region : List coords)
    (hguard : clusterGuard w x z (getCoordinateValue x z) st = true)
    (hfinite : ∀ c, InRegion w.seed ⟨x, z⟩ c → c ∈ region)
    (hrange : ∀ c ∈ region, ∀ n ∈ neighbours c, fitsInt n.x = true ∧ fitsInt n.z = true) :
    (∃ fuel s4, neighbourCalls w fuel x z (enterCell x z 1 st) = some s4 ∧
        getCluster w (fuel + 1) x z (getCoordinateValue x z) 1 st
          = some (clusterTail w x z 1 s4)) ∧
      (∀ fuel s4, neighbourCalls w fuel x z (enterCell x z 1 st) = some s4 →
        s4.checked_chunks.Nodup ∧
        (∀ c, c ∈ s4.checked_chunks ↔ InRegion w.seed ⟨x, z⟩ c) ∧
        (∀ c ∈ s4.checked_chunks, marked w.seed c = true) ∧
        (∀ (x1 z1 : Int) (st1 : State) (fuel1 : Nat) (s1 : State),
          InRegion w.seed ⟨x, z⟩ ⟨x1, z1⟩ →
          neighbourCalls w fuel1 x1 z1 (enterCell x1 z1 1 st1) = some s1 →
          ∀ c, c ∈ s1.checked_chunks ↔ c ∈ s4.checked_chunks) ∧
        (∀ c ∈ s4.checked_chunks, ∀ n ∈ neighbours c,
          fitsInt n.x = true ∧ fitsInt n.z = true)) := by
  have ho := clusterGuard_marked w x z st hguard
  constructor
  · obtain ⟨V4, hV4⟩ := fillNeighbours_total w.seed ⟨x, z⟩ region.toFinset
      (fun c hc => List.mem_toFinset.mpr (hfinite c hc)) ho
    refine ⟨region.toFinset.card + 1, { st with checked_chunks := V4 }, ?_, ?_⟩
    · rw [neighbourCalls_enter, hV4]; rfl
    · rw [getCluster_enter w _ x z _ 1 st hguard, neighbourCalls_enter, hV4]; rfl
  · intro fuel s4 h
    obtain ⟨hnd, hmem⟩ := neighbourCalls_region w fuel x z st s4 ho h
    refine ⟨hnd, hmem, ?_, ?_, ?_⟩
    · intro c hc
      exact inRegion_marked w.seed ⟨x, z⟩ c ((hmem c).mp hc)
    · intro x1 z1 st1 fuel1 s1 hreg h1
      obtain ⟨_, hmem1⟩ :=
        neighbourCalls_region w fuel1 x1 z1 st1 s1 (inRegion_marked w.seed _ _ hreg) h1
      intro c
      rw [hmem1 c, hmem c]
      exact inRegion_same w.seed ⟨x, z⟩ ⟨x1, z1⟩ hreg c
    · intro c hc
      exact hrange c (hfinite c ((hmem c).mp hc))

/-- C2, witness: seed 35, the region `{(2, -5), (2, -4)}`, filled from `(2, -5)`. The call
at the neighbour `(2, -4)` recurses and comes back to `(2, -5)`, which is in the list by
then; `(2, -4)` is the other possible origin. -/
theorem getCluster_visits_exactly_region_witness :
    (clusterGuard (mkWorld 35 12 1 1 true false true) 2 (-5) (getCoordinateValue 2 (-5))
        ⟨[], [], [], []⟩ = true ∧
      (∀ c, InRegion (mkWorld 35 12 1 1 true false true).seed ⟨2, -5⟩ c →
        c ∈ [(⟨2, -5⟩ : coords), ⟨2, -4⟩]) ∧
      (∀ c ∈ [(⟨2, -5⟩ : coords), ⟨2, -4⟩], ∀ n ∈ neighbours c,
        fitsInt n.x = true ∧ fitsInt n.z = true)) ∧
      neighbourCalls (mkWorld 35 12 1 1 true false true) 2 2 (-5)
          (enterCell 2 (-5) 1 ⟨[], [], [], []⟩) = some ⟨[⟨2, -5⟩, ⟨2, -4⟩], [], [], []⟩ ∧
      neighbourCalls (mkWorld 35 12 1 1 true false true) 2 2 (-4)
          (enterCell 2 (-4) 1 ⟨[], [], [], []⟩) = some ⟨[⟨2, -4⟩, ⟨2, -5⟩], [], [], []⟩ ∧
      ((∃ fuel s4, neighbourCalls (mkWorld 35 12 1 1 true false true) fuel 2 (-5)
            (enterCell 2 (-5) 1 ⟨[], [], [], []⟩) = some s4 ∧
          getCluster (mkWorld 35 12 1 1 true false true) (fuel + 1) 2 (-5)
            (getCoordinateValue 2 (-5)) 1 ⟨[], [], [], []⟩
            = some (clusterTail (mkWorld 35 12 1 1 true false true) 2 (-5) 1 s4)) ∧
        (∀ fuel s4, neighbourCalls (mkWorld 35 12 1 1 true false true) fuel 2 (-5)
            (enterCell 2 (-5) 1 ⟨[], [], [], []⟩) = some s4 →
          s4.checked_chunks.Nodup ∧
          (∀ c, c ∈ s4.checked_chunks ↔
            InRegion (mkWorld 35 12 1 1 true false true).seed ⟨2, -5⟩ c) ∧
          (∀ c ∈ s4.checked_chunks,
            marked (mkWorld 35 12 1 1 true false true).seed c = true) ∧
          (∀ (x1 z1 : Int) (st1 : State) (fuel1 : Nat) (s1 : State),
            InRegion (mkWorld 35 12 1 1 true false true).seed ⟨2, -5⟩ ⟨x1, z1⟩ →
            neighbourCalls (mkWorld 35 12 1 1 true false true) fuel1 x1 z1
              (enterCell x1 z1 1 st1) = some s1 →
            ∀ c, c ∈ s1.checked_chunks ↔ c ∈ s4.checked_chunks) ∧
          (∀ c ∈ s4.checked_chunks, ∀ n ∈ neighbours c,
            fitsInt n.x = true ∧ fitsInt n.z = true))) :=
  have hg : clusterGuard (mkWorld 35 12 1 1 true false true) 2 (-5)
      (getCoordinateValue 2 (-5)) ⟨[], [], [], []⟩ = true := by
    simp only [clusterGuard, isSlimeChunk_eq]; decide
  have hcl : ∀ c ∈ [(⟨2, -5⟩ : coords), ⟨2, -4⟩], ∀ n ∈ neighbours c,
      marked (mkWorld 35 12 1 1 true false true).seed n = true →
        n ∈ [(⟨2, -5⟩ : coords), ⟨2, -4⟩] := by
    simp only [marked, isSlimeChunk_eq]; decide
  have hfin : ∀ c, InRegion (mkWorld 35 12 1 1 true false true).seed ⟨2, -5⟩ c →
      c ∈ [(⟨2, -5⟩ : coords), ⟨2, -4⟩] :=
    region_subset_of_closed _ _ _ (by simp) hcl
  have hr : ∀ c ∈ [(⟨2, -5⟩ : coords), ⟨2, -4⟩], ∀ n ∈ neighbours c,
      fitsInt n.x = true ∧ fitsInt n.z = true := by decide
  ⟨⟨hg, hfin, hr⟩,
    by simp only [neighbourCalls, getCluster_eq_eval]; decide,
    by simp only [neighbourCalls, getCluster_eq_eval]; decide,
    getCluster_visits_exactly_region (mkWorld 35 12 1 1 true false true) 2 (-5)
      ⟨[], [], [], []⟩ [⟨2, -5⟩, ⟨2, -4⟩] hg hfin hr⟩

/-! ### Registration and the minimum size -/

/-- What the code provides of the minimum-size rule. For a positive `min_size`, an initial call of
`getCluster` that passes the guard and whose four neighbour calls leave the state `s4` runs
the block that inserts, scores and reports when the cluster has at least `min_size` cells,
and returns `s4` as it is when it has fewer; the neighbour calls themselves leave the
registry, the console and the posted requests untouched, so a smaller cluster is never
inserted, scored or reported. Whether the block registers the cluster is decided by
`set_insert`. -/
theorem getCluster_block_runs_iff_min_size (w : World) (fuel : Nat) (x z cv : Int)
    (st s4 : State) (hpos : 0 < w.min_size) (hint : w.min_size < 2 ^ 31)
    (hguard : clusterGuard w x z cv st = true)
    (hfill : neighbourCalls w fuel x z (enterCell x z 1 st) = some s4) :
    (s4.slime_clusters = st.slime_clusters ∧ s4.console = st.console ∧
        s4.posted = st.posted) ∧
      (w.min_size ≤ s4.checked_chunks.length →
        getCluster w (fuel + 1) x z cv 1 st = some (registerAndReport w x z s4) ∧
          (registerAndReport w x z s4).slime_clusters
            = (set_insert s4.slime_clusters (stable_sort s4.checked_chunks)).1) ∧
      ((s4.checked_chunks.length : Int) < w.min_size →
        getCluster w (fuel + 1) x z cv 1 st = some s4) := by
  have hu : toU64 w.min_size = w.min_size.toNat := by unfold toU64; omega
  refine ⟨?_, ?_, ?_⟩
  · rw [neighbourCalls_eq] at hfill
    cases hv : ((fillFrom w.seed fuel ⟨x + 1, z⟩ (enterCell x z 1 st).checked_chunks).bind
        fun v1 => (fillFrom w.seed fuel ⟨x - 1, z⟩ v1).bind fun v2 =>
          (fillFrom w.seed fuel ⟨x, z + 1⟩ v2).bind fun v3 =>
            fillFrom w.seed fuel ⟨x, z - 1⟩ v3) with
    | none => rw [hv] at hfill; simp at hfill
    | some cc =>
      rw [hv] at hfill
      simp only [Option.map_some', Option.some.injEq] at hfill
      subst hfill
      simp [enterCell]
  · intro hge
    constructor
    · rw [getCluster_enter w fuel x z cv 1 st hguard, hfill]
      simp only [Option.some_bind, clusterTail, hu]
      rw [if_pos]
      simp only [Bool.and_eq_true, decide_eq_true_eq]
      exact ⟨by omega, by norm_num⟩
    · cases h1 : (set_insert s4.slime_clusters (stable_sort s4.checked_chunks)).2 <;>
        simp only [registerAndReport] <;> split <;> try split
      all_goals rfl
  · intro hlt
    rw [getCluster_enter w fuel x z cv 1 st hguard, hfill]
    simp only [Option.some_bind, clusterTail, hu]
    rw [if_neg]
    simp only [Bool.and_eq_true, decide_eq_true_eq, not_and]
    intro h; omega

/-- C9, evaluation at the failing input: seed 35, `min_size = 2`, logging on. The cluster
`{(0, -6), (1, -6)}`, found first, is registered. The cluster `{(0, 0), (1, 0)}`, found
later, has 2 cells, as many as `min_size`: the block runs, but the registry is afterwards
what it was before and does not hold the cluster. With `min_size = 3` the same call leaves
the registry untouched as well, this time without running the block. -/
theorem getCluster_min_size_cluster_not_registered :
    0 < (mkWorld 35 12 2 1 true false true).min_size ∧
      getCluster (mkWorld 35 12 2 1 true false true) 3 0 (-6) (getCoordinateValue 0 (-6)) 1
        ⟨[], [], [], []⟩
        = some ⟨[⟨0, -6⟩, ⟨1, -6⟩], [[⟨0, -6⟩, ⟨1, -6⟩]], [], []⟩ ∧
      neighbourCalls (mkWorld 35 12 2 1 true false true) 2 0 0
        (enterCell 0 0 1 ⟨[⟨0, -6⟩, ⟨1, -6⟩], [[⟨0, -6⟩, ⟨1, -6⟩]], [], []⟩)
        = some ⟨[⟨0, 0⟩, ⟨1, 0⟩], [[⟨0, -6⟩, ⟨1, -6⟩]], [], []⟩ ∧
      (mkWorld 35 12 2 1 true false true).min_size
        ≤ (([⟨0, 0⟩, ⟨1, 0⟩] : List coords).length : Int) ∧
      getCluster (mkWorld 35 12 2 1 true false true) 3 0 0 (getCoordinateValue 0 0) 1
        ⟨[⟨0, -6⟩, ⟨1, -6⟩], [[⟨0, -6⟩, ⟨1, -6⟩]], [], []⟩
        = some ⟨[⟨0, 0⟩, ⟨1, 0⟩], [[⟨0, -6⟩, ⟨1, -6⟩]], [], []⟩ ∧
      set_insert [[⟨0, -6⟩, ⟨1, -6⟩]] (stable_sort [⟨0, 0⟩, ⟨1, 0⟩])
        = ([[⟨0, -6⟩, ⟨1, -6⟩]], false) ∧
      ([⟨0, 0⟩, ⟨1, 0⟩] : List coords) ∉ [[(⟨0, -6⟩ : coords), ⟨1, -6⟩]] ∧
      getCluster (mkWorld 35 12 3 1 true false true) 3 0 0 (getCoordinateValue 0 0) 1
        ⟨[⟨0, -6⟩, ⟨1, -6⟩], [[⟨0, -6⟩, ⟨1, -6⟩]], [], []⟩
        = some ⟨[⟨0, 0⟩, ⟨1, 0⟩], [[⟨0, -6⟩, ⟨1, -6⟩]], [], []⟩ := by
  simp only [neighbourCalls, getCluster_eq_eval]
  decide

/-! ### Number of guarded calls of an initial call -/

end world
